import Mathlib

/-!
Verification of the `finml` daily cross-sectional long/short backtest engine
(`src/finml/backtest/engine.py`, function `backtest_rank_ls`).

The engine is shallowly embedded over `List` and `ℚ`:
* pandas DataFrames become lists of records in row order;
* float arithmetic becomes exact rational arithmetic (`ℚ`), with NaN modelled
  by `Option` where the code produces NaN sentinels; division is Lean's total
  division on `ℚ`, which only matters on degenerate inputs the theorems note;
* `sort_values` on a column list becomes a stable insertion sort on the same
  lexicographic key (pandas uses a stable lexicographic sort for multi-column
  keys); the per-day single-column score sort is modelled as a stable sort,
  ties following the canonical (symbol, ts) row order;
* symbols and timestamps become `Nat` (only their identity and order is used).
-/

namespace Finml

set_option maxRecDepth 16000

/- Batteries marks the `Rat` field operations `@[irreducible]`; concrete
witnesses and counterexamples below evaluate the engine on literal inputs, so
re-enable unfolding for them within this file. -/
attribute [local semireducible] Rat.mul Rat.inv Rat.add Rat.sub Rat.ofScientific
/-- A row of the `preds` input table: columns `symbol`, `ts`, `pred`. -/
structure PredRow where
  symbol : Nat
  ts : Nat
  pred : ℚ
deriving DecidableEq, Repr

/-- A row of the `market` input table (only the columns the engine reads). -/
structure MktRow where
  symbol : Nat
  ts : Nat
  close : ℚ
deriving DecidableEq, Repr

/-- A row of the joined frame after `merge` and `dropna`: has a score and a
realized one-day return. -/
structure JRow where
  symbol : Nat
  ts : Nat
  pred : ℚ
  ret : ℚ
deriving DecidableEq, Repr

/-- A row of the joined frame after the `pos`, `pos_prev`, `turnover`, `cost`
and `pnl_sym` columns have been added. -/
structure PRow where
  symbol : Nat
  ts : Nat
  pred : ℚ
  ret : ℚ
  pos : ℚ
  posPrev : ℚ
  turnover : ℚ
  cost : ℚ
  pnlSym : ℚ
deriving DecidableEq, Repr

/-- A row of the `daily` output table: columns `ts`, `pnl`, `equity`. -/
structure DailyRow where
  ts : Nat
  pnl : ℚ
  equity : ℚ
deriving DecidableEq, Repr

/-! ### Stable sorting (model of `DataFrame.sort_values`) -/

/-- Insert `a` just before the first element `b` with `le a b`.  This is the
insertion step of a stable insertion sort. -/
def insertLe (le : α → α → Bool) (a : α) : List α → List α
  | [] => [a]
  | b :: t => if le a b then a :: b :: t else b :: insertLe le a t

/-- Stable insertion sort by the boolean relation `le`.  Models
`DataFrame.sort_values`: elements that compare equal keep their input order. -/
def sortLe (le : α → α → Bool) : List α → List α
  | [] => []
  | a :: t => insertLe le a (sortLe le t)

/-! ### Keep-first de-duplication (model of `drop_duplicates`) -/

/-- Worker for `dropDupBy`: `seen` is the set of key values already kept. -/
def dropDupByAux {κ : Type} [DecidableEq κ] (key : α → κ) (seen : List κ) :
    List α → List α
  | [] => []
  | a :: t =>
    if key a ∈ seen then dropDupByAux key seen t
    else a :: dropDupByAux key (key a :: seen) t

/-- Model of `DataFrame.drop_duplicates(subset=key)` with the default
`keep="first"`: for every key value, the first row carrying it survives. -/
def dropDupBy {κ : Type} [DecidableEq κ] (key : α → κ) (l : List α) : List α :=
  dropDupByAux key [] l

/-! ### Line 22-23: canonicalization of the two input tables.
`preds.sort_values(["symbol", "ts"]).drop_duplicates(["symbol", "ts"])` and the
same for `market`.  The multi-column `sort_values` is a stable lexicographic
sort; `drop_duplicates` defaults to `keep="first"`. -/

/-- The natural key `(symbol, ts)` of a predictions row. -/
def keyP (r : PredRow) : Nat × Nat := (r.symbol, r.ts)

/-- The natural key `(symbol, ts)` of a market row. -/
def keyM (r : MktRow) : Nat × Nat := (r.symbol, r.ts)

/-- Lexicographic order on `(symbol, ts)` keys. -/
def leKey (x y : Nat × Nat) : Bool :=
  decide (x.1 < y.1 ∨ (x.1 = y.1 ∧ x.2 ≤ y.2))

def lePred (a b : PredRow) : Bool := leKey (keyP a) (keyP b)

def leMkt (a b : MktRow) : Bool := leKey (keyM a) (keyM b)

/-- `preds.sort_values(["symbol","ts"]).drop_duplicates(["symbol","ts"])`. -/
def canonPreds (l : List PredRow) : List PredRow :=
  dropDupBy keyP (sortLe lePred l)

/-- `market.sort_values(["symbol","ts"]).drop_duplicates(["symbol","ts"])`. -/
def canonMkt (l : List MktRow) : List MktRow :=
  dropDupBy keyM (sortLe leMkt l)

/-! ### Lines 25-26: `m["ret_1d"] = m.groupby("symbol")["close"].pct_change(1)`.
Within each symbol group (group order = row order of the canonicalized table),
`ret_1d = close / previous close - 1`, `NaN` (here `none`) on the symbol's
first row.  The scan keeps, per symbol, the most recent close seen. -/

/-- The value recorded for symbol `s` in the scan state, most recent first. -/
def prevOf (seen : List (Nat × ℚ)) (s : Nat) : Option ℚ :=
  (seen.find? (fun q => decide (q.1 = s))).map Prod.snd

/-- Worker computing the `ret_1d` column. -/
def buildRet (seen : List (Nat × ℚ)) : List MktRow → List (MktRow × Option ℚ)
  | [] => []
  | r :: t =>
    (r, (prevOf seen r.symbol).map (fun c => r.close / c - 1)) ::
      buildRet ((r.symbol, r.close) :: seen) t

/-- The canonicalized market table with its `ret_1d` column. -/
def withRet (m : List MktRow) : List (MktRow × Option ℚ) := buildRet [] m

/-! ### Lines 28-29: `df = preds.merge(m[["symbol","ts","ret_1d"]],
on=["symbol","ts"], how="left")` followed by
`df = df.dropna(subset=["pred","ret_1d"]).copy()`.
The right table is de-duplicated, so a left merge finds at most one match;
rows without a defined return are dropped (scores are total here, matching the
spec's premise that missing scores are dropped before the join). -/

def mergeRet (p : List PredRow) (mr : List (MktRow × Option ℚ)) : List JRow :=
  p.filterMap (fun pr =>
    match mr.find? (fun q => decide (q.1.symbol = pr.symbol ∧ q.1.ts = pr.ts)) with
    | some (_, some ret) => some ⟨pr.symbol, pr.ts, pr.pred, ret⟩
    | _ => none)

/-- The joined frame `df` as of line 29. -/
def dfJoined (preds : List PredRow) (market : List MktRow) : List JRow :=
  mergeRet (canonPreds preds) (withRet (canonMkt market))

/-! ### Lines 31-43: per-day cross-sectional selection.
`df["pos"] = 0.0`; for each date group with `n >= 20` rows, sort by `pred`
and set the first `k_short` rows to `-1/k_short`, then the last `k_long`
rows to `+1/k_long` (the long assignment overwrites on overlap). -/

/-- `max(1, int(np.floor(q * n)))`. -/
def kOf (q : ℚ) (n : Nat) : Nat := (max 1 ⌊q * n⌋).toNat

/-- Score order used by `day.sort_values("pred")`. -/
def leScore (a b : JRow) : Bool := decide (a.pred ≤ b.pred)

/-- The position vector over the score-sorted day: index `j` receives
`+1/k_long` if it lies in the last `k_long` slots (`idx[-k_long:]`), else
`-1/k_short` if it lies in the first `k_short` slots (`idx[:k_short]`),
else `0`.  Checking the long condition first encodes that the long
assignment is executed after — and overwrites — the short one. -/
def posVec (n ks kl : Nat) : List ℚ :=
  (List.range n).map (fun j =>
    if n ≤ j + kl then (kl : ℚ)⁻¹ else if j < ks then -(ks : ℚ)⁻¹ else 0)

/-- One date group's weight assignment: each row of the score-sorted day
paired with its weight; all zero when `n < 20` (the loop's `continue`). -/
def dayPosList (lq sq : ℚ) (day : List JRow) : List (JRow × ℚ) :=
  let n := day.length
  if n < 20 then day.map (fun r => (r, 0))
  else (sortLe leScore day).zip (posVec n (kOf sq n) (kOf lq n))

/-- The weight written back into row `(s, date)` of `df` by the loop. -/
def posOfDay (lq sq : ℚ) (day : List JRow) (s : Nat) : ℚ :=
  (((dayPosList lq sq day).find? (fun q => decide (q.1.symbol = s))).map
    Prod.snd).getD 0

/-- `df` with its `pos` column: every row receives the weight its date's
cross-section assigned to its symbol. -/
def withPos (lq sq : ℚ) (df : List JRow) : List (JRow × ℚ) :=
  df.map (fun r => (r, posOfDay lq sq (df.filter (fun x => decide (x.ts = r.ts))) r.symbol))

/-! ### Lines 46-52: turnover costs and per-symbol pnl.
`pos_prev = groupby("symbol")["pos"].shift(1).fillna(0)`;
`turnover = |pos - pos_prev|`; `cost = fee * turnover` with
`fee = fee_bps / 1e4`; `pnl_sym = pos_prev * ret_1d - cost`. -/

/-- The pnl booked on one row: prior weight times realized return, minus the
linear transaction cost on the weight change. -/
def pnlFormula (prev ret fee pos : ℚ) : ℚ := prev * ret - fee * |pos - prev|

/-- Worker adding the `pos_prev`, `turnover`, `cost` and `pnl_sym` columns;
`seen` maps each symbol to its most recent weight (the `shift(1)` state). -/
def buildPnl (fee : ℚ) (seen : List (Nat × ℚ)) : List (JRow × ℚ) → List PRow
  | [] => []
  | (r, p) :: t =>
    let pv := (prevOf seen r.symbol).getD 0
    { symbol := r.symbol, ts := r.ts, pred := r.pred, ret := r.ret,
      pos := p, posPrev := pv, turnover := |p - pv|, cost := fee * |p - pv|,
      pnlSym := pnlFormula pv r.ret fee p } :: buildPnl fee ((r.symbol, p) :: seen) t

/-- The joined frame with all derived columns of lines 31-52. -/
def pnlRows (lq sq feeBps : ℚ) (df : List JRow) : List PRow :=
  buildPnl (feeBps / 10000) [] (withPos lq sq df)

/-! ### Lines 54-56: `daily = df.groupby("ts").agg(pnl=("pnl_sym","sum"))`,
sorted ascending by `ts`, and `daily["equity"] = (1.0 + daily["pnl"]).cumprod()`. -/

def leNat (a b : Nat) : Bool := decide (a ≤ b)

/-- The distinct dates of the frame in ascending order. -/
def tsList (rows : List PRow) : List Nat :=
  sortLe leNat (dropDupBy id (rows.map (fun r => r.ts)))

/-- Per-date total pnl, dates ascending. -/
def dailyPnls (rows : List PRow) : List (Nat × ℚ) :=
  (tsList rows).map (fun t =>
    (t, ((rows.filter (fun r => decide (r.ts = t))).map (fun r => r.pnlSym)).sum))

/-- Worker compounding the equity column: `acc` is the running product of
`(1 + pnl)` over previous dates. -/
def mkDaily (acc : ℚ) : List (Nat × ℚ) → List DailyRow
  | [] => []
  | (t, p) :: rest => ⟨t, p, acc * (1 + p)⟩ :: mkDaily (acc * (1 + p)) rest

/-- The `daily` output table. -/
def dailyTable (rows : List PRow) : List DailyRow := mkDaily 1 (dailyPnls rows)

/-! ### Lines 58-72: summary metrics.
Float NaN sentinels become `Option.none`.  `ℚ` cannot hold the square roots in
`np.std` and `sqrt(252)`, so the embedding carries `volSq`, the square of
`vol_daily` (the `ddof=1` sample variance), and `sharpeDefined`, the exact
condition `std and std > 0` under which the code produces a finite Sharpe
ratio: `vol_daily > 0` iff `volSq > 0`, and float NaN is truthy in Python but
`NaN > 0` is false, so NaN variance also yields the NaN sentinel. -/

/-- Arithmetic mean (`np.mean`); Lean's total division returns `0` on the
empty list, where NumPy would return NaN — the metrics below never use the
mean without at least two observations. -/
def meanQ (l : List ℚ) : ℚ := l.sum / l.length

/-- The square of `float(np.std(pnl, ddof=1)) if len(pnl) > 1 else nan`. -/
def varSample (l : List ℚ) : Option ℚ :=
  if 1 < l.length then
    some (((l.map (fun x => (x - meanQ l) ^ 2)).sum) / ((l.length : ℚ) - 1))
  else none

/-- Whether `float((mean / std) * np.sqrt(252)) if std and std > 0 else nan`
takes its finite branch. -/
def sharpeDefined (l : List ℚ) : Bool :=
  match varSample l with
  | none => false
  | some v => decide (0 < v)

/-- Worker for the running maximum (`Series.cummax`). -/
def cummaxAux (acc : ℚ) : List ℚ → List ℚ
  | [] => []
  | x :: t => max acc x :: cummaxAux (max acc x) t

/-- `daily["equity"].cummax()`. -/
def cummax : List ℚ → List ℚ
  | [] => []
  | x :: t => x :: cummaxAux x t

/-- One entry of `dd = equity / equity.cummax() - 1.0`, with float NaN
modelled as `none`.  When the running maximum is `0`, the equity itself is
also `0` on every series the engine produces (equity is a cumulative product,
so a zero propagates to every later entry and hence to the running maximum),
and `0.0 / 0.0` is NaN; entries with a zero running maximum are therefore the
NaN entries.  (`±inf`, which exact float arithmetic would produce only for a
nonzero numerator over a zero running maximum, is unreachable from a
cumulative-product equity series and has no `ℚ` counterpart.) -/
def ddEntry (e m : ℚ) : Option ℚ :=
  if m = 0 then none else some (e / m - 1)

/-- `dd = daily["equity"] / daily["equity"].cummax() - 1.0`. -/
def drawdowns (eq : List ℚ) : List (Option ℚ) :=
  List.zipWith ddEntry eq (cummax eq)

/-- Minimum of a list of rationals; `none` exactly on the empty list
(`float(dd.min()) if len(dd) else float("nan")`). -/
def minQ : List ℚ → Option ℚ
  | [] => none
  | x :: t =>
    some (match minQ t with
          | none => x
          | some y => min x y)

/-- `Series.min()` with pandas' default `skipna=True`: the minimum of the
defined (non-NaN) entries, and the NaN sentinel when every entry is NaN. -/
def minSkipNone (l : List (Option ℚ)) : Option ℚ := minQ (l.filterMap id)

/-- `float(dd.min()) if len(dd) else float("nan")`. -/
def maxDrawdownOf (eq : List ℚ) : Option ℚ :=
  if eq.isEmpty then none else minSkipNone (drawdowns eq)

/-- The metrics record returned by the engine; `volSq` stands for the square
of `vol_daily`, `sharpeDefined` for the finiteness of `sharpe_252`. -/
structure Metrics where
  nDays : Nat
  meanDaily : ℚ
  volSq : Option ℚ
  sharpeIsFinite : Bool
  maxDrawdown : Option ℚ
  feeBps : ℚ
  longQ : ℚ
  shortQ : ℚ
deriving DecidableEq, Repr

def metricsOf (feeBps lq sq : ℚ) (daily : List DailyRow) : Metrics :=
  let pnl := daily.map (fun r => r.pnl)
  { nDays := daily.length
    meanDaily := meanQ pnl
    volSq := varSample pnl
    sharpeIsFinite := sharpeDefined pnl
    maxDrawdown := maxDrawdownOf (daily.map (fun r => r.equity))
    feeBps := feeBps
    longQ := lq
    shortQ := sq }

/-- The full engine result: the `daily` table and the metrics record. -/
structure BTResult where
  daily : List DailyRow
  metrics : Metrics
deriving DecidableEq, Repr

/-- `backtest_rank_ls(preds, market, long_q=lq, short_q=sq, fee_bps=feeBps)`. -/
def backtest_rank_ls (preds : List PredRow) (market : List MktRow)
    (lq sq feeBps : ℚ) : BTResult :=
  let d := dailyTable (pnlRows lq sq feeBps (dfJoined preds market))
  ⟨d, metricsOf feeBps lq sq d⟩

/-! ### Properties of the order relations -/

/-! ### The shape of one day's weight assignment -/


/-! ### Concrete inputs used by witnesses and counterexamples -/

/-- A one-symbol predictions table: symbol `1` scored on date `2`. -/
def predsW : List PredRow := [⟨1, 2, 5⟩]

/-- A one-symbol market table: closes `100` on date `1`, `102` on date `2`. -/
def mktW : List MktRow := [⟨1, 1, 100⟩, ⟨1, 2, 102⟩]


/-- Predictions for one symbol on two dates (dates `2` and `3`). -/
def predsW2 : List PredRow := [⟨1, 2, 5⟩, ⟨1, 3, 6⟩]

/-- Market closes for one symbol on dates `1`, `2`, `3`. -/
def mktW3 : List MktRow := [⟨1, 1, 100⟩, ⟨1, 2, 102⟩, ⟨1, 3, 104⟩]

/-- Twenty symbols scored on date `2` (score of symbol `s` is `s`). -/
def preds20 : List PredRow :=
  (List.range 20).map (fun s => ⟨s + 1, 2, ((s : ℚ) + 1)⟩)

/-- Twenty symbols with closes on dates `1` and `2`: symbol `s` moves from
`100` to `100 + s`, so its realized return on date `2` is `s / 100`. -/
def mkt20 : List MktRow :=
  (List.range 20).map (fun s => ⟨s + 1, 1, 100⟩) ++
    (List.range 20).map (fun s => ⟨s + 1, 2, 100 + ((s : ℚ) + 1)⟩)


/-- A one-row cross-section (a thin day). -/
def dayS : List JRow := [⟨1, 2, 5, 1 / 100⟩]

/-- A 20-row cross-section: symbol `s` has score `s` and return `s / 100`. -/
def day20 : List JRow :=
  (List.range 20).map (fun s => ⟨s + 1, 2, (s : ℚ) + 1, ((s : ℚ) + 1) / 100⟩)


/-- Date-3 closes for the C7 counterexample: the two top-scored symbols rise
40%, the two bottom-scored symbols fall 40%, the rest are flat. -/
def close3 (s : Nat) : ℚ :=
  if 19 ≤ s then (100 + (s : ℚ)) * (7 / 5)
  else if s ≤ 2 then (100 + (s : ℚ)) * (3 / 5)
  else 100 + (s : ℚ)

/-- Twenty symbols scored identically on dates `2` and `3`. -/
def preds40 : List PredRow :=
  (List.range 20).map (fun s => ⟨s + 1, 2, (s : ℚ) + 1⟩) ++
    (List.range 20).map (fun s => ⟨s + 1, 3, (s : ℚ) + 1⟩)

/-- Market closes on dates `1`, `2`, `3` for the C7 counterexample. -/
def mkt60 : List MktRow :=
  (List.range 20).map (fun s => ⟨s + 1, 1, 100⟩) ++
    (List.range 20).map (fun s => ⟨s + 1, 2, 100 + ((s : ℚ) + 1)⟩) ++
    (List.range 20).map (fun s => ⟨s + 1, 3, close3 (s + 1)⟩)


/-! ### Reference-level model for the frame property (C9).
In Python, DataFrame variables are references into a heap of table objects:
`sort_values`, `drop_duplicates`, `merge`, `dropna`, `copy` and
`groupby(...).agg` return fresh objects (allocated here at index
`heap.length`), while column assignment (`df["c"] = ...`, `df.loc[...] = ...`)
mutates the referenced object in place.  The engine's statements are replayed
against an explicit heap to show the two argument objects are never written. -/

/-- A heap cell: one pandas table object, at any of the engine's stages. -/
inductive Obj where
  | pT (t : List PredRow)
  | mT (t : List MktRow)
  | mrT (t : List (MktRow × Option ℚ))
  | jT (t : List JRow)
  | wT (t : List (JRow × ℚ))
  | fT (t : List PRow)
  | dT (t : List DailyRow)
deriving DecidableEq, Repr

abbrev Heap := List Obj

def readP : Option Obj → List PredRow
  | some (Obj.pT t) => t
  | _ => []

def readM : Option Obj → List MktRow
  | some (Obj.mT t) => t
  | _ => []

def readMR : Option Obj → List (MktRow × Option ℚ)
  | some (Obj.mrT t) => t
  | _ => []

def readJ : Option Obj → List JRow
  | some (Obj.jT t) => t
  | _ => []

def readW : Option Obj → List (JRow × ℚ)
  | some (Obj.wT t) => t
  | _ => []

def readF : Option Obj → List PRow
  | some (Obj.fT t) => t
  | _ => []

def readD : Option Obj → List DailyRow
  | some (Obj.dT t) => t
  | _ => []

/-- Allocate a fresh object; its reference is the old heap length. -/
def halloc (h : Heap) (o : Obj) : Heap × Nat := (h ++ [o], h.length)

/-- Overwrite the object at reference `r` (in-place column assignment). -/
def hwrite (h : Heap) (r : Nat) (o : Obj) : Heap := h.set r o

/-- `backtest_rank_ls` replayed statement by statement on the heap, with the
argument tables passed by reference.  The only in-place writes (lines 26,
31-43 and 46-52) hit the objects freshly allocated on lines 22-23 and 28-29,
never the arguments. -/
def enginePyHeap (h0 : Heap) (pRef mRef : Nat) (lq sq feeBps : ℚ) :
    Heap × List DailyRow × Metrics :=
  -- line 22: preds = preds.sort_values([...]).drop_duplicates([...])
  let h1 := (halloc h0 (Obj.pT (canonPreds (readP (h0.get? pRef))))).1
  let rPreds := h0.length
  -- line 23: m = market.sort_values([...]).drop_duplicates([...])
  let h2 := (halloc h1 (Obj.mT (canonMkt (readM (h0.get? mRef))))).1
  let rM := h1.length
  -- lines 25-26: m["ret_1d"] = m.groupby("symbol")["close"].pct_change(1)
  let h3 := hwrite h2 rM (Obj.mrT (withRet (readM (h2.get? rM))))
  -- lines 28-29: df = preds.merge(m[[...]], ...).dropna(...).copy()
  let h4 := (halloc h3 (Obj.jT (mergeRet (readP (h3.get? rPreds))
    (readMR (h3.get? rM))))).1
  let rDf := h3.length
  -- lines 31-43: df["pos"] = 0.0 and the per-day df.loc[...] assignments
  let h5 := hwrite h4 rDf (Obj.wT (withPos lq sq (readJ (h4.get? rDf))))
  -- lines 46-52: the pos_prev / turnover / cost / pnl_sym columns
  let h6 := hwrite h5 rDf (Obj.fT (buildPnl (feeBps / 10000) []
    (readW (h5.get? rDf))))
  -- lines 54-56: daily = df.groupby("ts").agg(...).sort_values("ts") + equity
  let h7 := (halloc h6 (Obj.dT (dailyTable (readF (h6.get? rDf))))).1
  let rDaily := h6.length
  (h7, readD (h7.get? rDaily), metricsOf feeBps lq sq (readD (h7.get? rDaily)))

/-! ## Lemmas and theorems -/

theorem prevOf_nil (s : Nat) : prevOf [] s = none := rfl

theorem prevOf_cons (a : Nat) (v : ℚ) (seen : List (Nat × ℚ)) (s : Nat) :
    prevOf ((a, v) :: seen) s = if a = s then some v else prevOf seen s := by
  simp only [prevOf, List.find?_cons]
  by_cases h : a = s
  · simp [h]
  · simp [h]

theorem buildPnl_nil (fee : ℚ) (seen : List (Nat × ℚ)) :
    buildPnl fee seen [] = [] := rfl

theorem buildPnl_cons (fee : ℚ) (seen : List (Nat × ℚ)) (r : JRow) (p : ℚ)
    (t : List (JRow × ℚ)) :
    buildPnl fee seen ((r, p) :: t) =
      (⟨r.symbol, r.ts, r.pred, r.ret, p, (prevOf seen r.symbol).getD 0,
        |p - (prevOf seen r.symbol).getD 0|,
        fee * |p - (prevOf seen r.symbol).getD 0|,
        pnlFormula ((prevOf seen r.symbol).getD 0) r.ret fee p⟩ : PRow) ::
      buildPnl fee ((r.symbol, p) :: seen) t := rfl

theorem buildPnl_mem_formula (fee : ℚ) :
    ∀ (l : List (JRow × ℚ)) (seen : List (Nat × ℚ)) (r : PRow),
      r ∈ buildPnl fee seen l →
        r.pnlSym = pnlFormula r.posPrev r.ret fee r.pos ∧
        r.turnover = |r.pos - r.posPrev| ∧ r.cost = fee * r.turnover
  | [], _, r, hr => by simp [buildPnl_nil] at hr
  | (a, p) :: t, seen, r, hr => by
    rw [buildPnl_cons] at hr
    rcases List.mem_cons.mp hr with rfl | hr
    · exact ⟨rfl, rfl, rfl⟩
    · exact buildPnl_mem_formula fee t _ r hr

theorem length_buildPnl (fee : ℚ) :
    ∀ (l : List (JRow × ℚ)) (seen : List (Nat × ℚ)),
      (buildPnl fee seen l).length = l.length
  | [], _ => rfl
  | (a, p) :: t, seen => by
    rw [buildPnl_cons]
    simp [length_buildPnl fee t]

/-- The `pos_prev` column computed by the `shift(1)` state scan equals, for
every row, the `pos` of the previous output row of the same symbol — or the
state's record (`0` at top level) on the symbol's first appearance. -/
theorem buildPnl_posPrev (fee : ℚ) :
    ∀ (l : List (JRow × ℚ)) (seen : List (Nat × ℚ)) (i : Nat)
      (h : i < (buildPnl fee seen l).length),
      ((buildPnl fee seen l).get ⟨i, h⟩).posPrev =
        (((((buildPnl fee seen l).take i).filter
            (fun x => decide (x.symbol = ((buildPnl fee seen l).get ⟨i, h⟩).symbol))).getLast?).map
          (fun x => x.pos)).getD
          ((prevOf seen ((buildPnl fee seen l).get ⟨i, h⟩).symbol).getD 0)
  | [], seen, i, h => by simp [buildPnl_nil] at h
  | (r, p) :: t, seen, 0, h => by
    simp [buildPnl_cons]
  | (r, p) :: t, seen, i + 1, h => by
    have h' : i < (buildPnl fee ((r.symbol, p) :: seen) t).length :=
      Nat.lt_of_succ_lt_succ h
    have IH := buildPnl_posPrev fee t ((r.symbol, p) :: seen) i h'
    simp only [buildPnl_cons]
    simp only [List.get_eq_getElem, List.getElem_cons_succ, List.take_succ_cons,
      List.filter_cons]
    simp only [List.get_eq_getElem] at IH
    by_cases hs : r.symbol =
        (buildPnl fee ((r.symbol, p) :: seen) t)[i].symbol
    · simp only [← hs] at IH ⊢
      simp only [List.getLast?_cons, IH, prevOf_cons, if_pos]
      rcases hlast : ((buildPnl fee ((r.symbol, p) :: seen) t).take i |>.filter
          (fun x => decide (x.symbol = r.symbol))).getLast? with _ | x
      · simp [List.getLast?_cons, hlast]
      · simp [List.getLast?_cons, hlast]
    · have hd : (decide ((⟨r.symbol, r.ts, r.pred, r.ret, p,
          (prevOf seen r.symbol).getD 0, |p - (prevOf seen r.symbol).getD 0|,
          fee * |p - (prevOf seen r.symbol).getD 0|,
          pnlFormula ((prevOf seen r.symbol).getD 0) r.ret fee p⟩ : PRow).symbol =
          (buildPnl fee ((r.symbol, p) :: seen) t)[i].symbol)) = false := by
        simpa using hs
      simp only [hd, Bool.false_eq_true, if_false]
      rw [IH, prevOf_cons, if_neg hs]

theorem insertLe_perm (le : α → α → Bool) (a : α) (l : List α) :
    (insertLe le a l).Perm (a :: l) := by
  induction l with
  | nil => simp [insertLe]
  | cons b t ih =>
    simp only [insertLe]
    by_cases h : le a b = true
    · simp [h]
    · simp only [h]
      exact ((ih.cons b).trans (List.Perm.swap a b t))

theorem sortLe_perm (le : α → α → Bool) (l : List α) : (sortLe le l).Perm l := by
  induction l with
  | nil => simp [sortLe]
  | cons a t ih => exact (insertLe_perm le a (sortLe le t)).trans (ih.cons a)

theorem mem_insertLe {le : α → α → Bool} {a x : α} {l : List α} :
    x ∈ insertLe le a l ↔ x = a ∨ x ∈ l := by
  have := (insertLe_perm le a l).mem_iff (a := x)
  simpa using this

theorem insertLe_pairwise (le : α → α → Bool)
    (htot : ∀ x y, le x y = true ∨ le y x = true)
    (htr : ∀ x y z, le x y = true → le y z = true → le x z = true)
    (a : α) {l : List α} (hl : l.Pairwise (fun x y => le x y = true)) :
    (insertLe le a l).Pairwise (fun x y => le x y = true) := by
  induction l with
  | nil => simp [insertLe]
  | cons b t ih =>
    rcases hl with _ | ⟨hb, ht⟩
    simp only [insertLe]
    by_cases h : le a b = true
    · simp only [h, if_true]
      refine List.Pairwise.cons ?_ (List.Pairwise.cons hb ht)
      intro x hx
      rcases List.mem_cons.mp hx with rfl | hx
      · exact h
      · exact htr a b x h (hb x hx)
    · simp only [h, if_false]
      refine List.Pairwise.cons ?_ (ih ht)
      intro x hx
      rcases mem_insertLe.mp hx with rfl | hx
      · rcases htot x b with h1 | h1
        · exact absurd h1 h
        · exact h1
      · exact hb x hx

theorem sortLe_pairwise (le : α → α → Bool)
    (htot : ∀ x y, le x y = true ∨ le y x = true)
    (htr : ∀ x y z, le x y = true → le y z = true → le x z = true)
    (l : List α) : (sortLe le l).Pairwise (fun x y => le x y = true) := by
  induction l with
  | nil => simp [sortLe]
  | cons a t ih => exact insertLe_pairwise le htot htr a ih

theorem filter_insertLe_pos (le : α → α → Bool) (p : α → Bool) {a : α}
    (hp : p a = true) (hle : ∀ b, p b = true → le a b = true) (l : List α) :
    (insertLe le a l).filter p = a :: l.filter p := by
  induction l with
  | nil => simp [insertLe, hp]
  | cons b t ih =>
    simp only [insertLe]
    by_cases h : le a b = true
    · simp [h, hp]
    · simp only [h, if_false]
      by_cases hb : p b = true
      · exact absurd (hle b hb) h
      · simp only [List.filter_cons]
        rw [Bool.not_eq_true] at hb
        simp [hb, ih]

theorem filter_insertLe_neg (le : α → α → Bool) (p : α → Bool) {a : α}
    (hp : p a = false) (l : List α) :
    (insertLe le a l).filter p = l.filter p := by
  induction l with
  | nil => simp [insertLe, hp]
  | cons b t ih =>
    simp only [insertLe]
    by_cases h : le a b = true
    · simp [h, hp]
    · simp only [h, if_false, List.filter_cons]
      by_cases hb : p b = true
      · simp [hb, ih]
      · rw [Bool.not_eq_true] at hb
        simp [hb, ih]

/-- Stability of `sortLe`, phrased through `filter`: selecting the rows of one
key class yields the same subsequence before and after sorting, provided the
predicate only selects mutually `le`-equivalent elements. -/
theorem filter_sortLe (le : α → α → Bool) (p : α → Bool)
    (hcl : ∀ x y, p x = true → p y = true → le x y = true) (l : List α) :
    (sortLe le l).filter p = l.filter p := by
  induction l with
  | nil => simp [sortLe]
  | cons a t ih =>
    simp only [sortLe]
    by_cases ha : p a = true
    · rw [filter_insertLe_pos le p ha (fun b hb => hcl a b ha hb), ih,
        List.filter_cons, ha]
      simp
    · rw [Bool.not_eq_true] at ha
      rw [filter_insertLe_neg le p ha, ih, List.filter_cons, ha]
      simp

/-- A permutation of a list with pairwise-distinct keys has a unique sorted
arrangement. -/
theorem sortedPermEq {κ : Type} [DecidableEq κ] (le : α → α → Bool) (key : α → κ)
    (hanti : ∀ x y, le x y = true → le y x = true → key x = key y) :
    ∀ l₁ l₂ : List α, l₁.Perm l₂ →
      l₁.Pairwise (fun x y => le x y = true) →
      l₂.Pairwise (fun x y => le x y = true) →
      (l₁.map key).Nodup → l₁ = l₂
  | [], l₂, hp, _, _, _ => (hp.nil_eq).symm ▸ rfl
  | a :: t₁, [], hp, _, _, _ => absurd hp.symm.nil_eq (by simp)
  | a :: t₁, b :: t₂, hp, hs₁, hs₂, hnd => by
    have hab : a = b := by
      by_contra hne
      have hbmem : b ∈ t₁ := by
        have := hp.symm.subset (List.mem_cons_self b t₂)
        rcases List.mem_cons.mp this with h | h
        · exact absurd h.symm hne
        · exact h
      have hamem : a ∈ t₂ := by
        have := hp.subset (List.mem_cons_self a t₁)
        rcases List.mem_cons.mp this with h | h
        · exact absurd h hne
        · exact h
      have h1 : le a b = true := (List.pairwise_cons.mp hs₁).1 b hbmem
      have h2 : le b a = true := (List.pairwise_cons.mp hs₂).1 a hamem
      have hk : key a = key b := hanti a b h1 h2
      have : key b ∈ t₁.map key := List.mem_map_of_mem key hbmem
      rw [← hk] at this
      exact (List.nodup_cons.mp hnd).1 this
    subst hab
    have ht : t₁ = t₂ :=
      sortedPermEq le key hanti t₁ t₂ (hp.cons_inv)
        (List.pairwise_cons.mp hs₁).2 (List.pairwise_cons.mp hs₂).2
        (List.nodup_cons.mp hnd).2
    rw [ht]

theorem mem_dropDupByAux_sub {κ : Type} [DecidableEq κ] (key : α → κ) :
    ∀ (l : List α) (seen : List κ) (x : α), x ∈ dropDupByAux key seen l → x ∈ l
  | [], _, x, h => by simp [dropDupByAux] at h
  | a :: t, seen, x, h => by
    rw [dropDupByAux] at h
    by_cases ha : key a ∈ seen
    · rw [if_pos ha] at h
      exact List.mem_cons_of_mem a (mem_dropDupByAux_sub key t seen x h)
    · rw [if_neg ha] at h
      rcases List.mem_cons.mp h with rfl | h
      · exact List.mem_cons_self _ _
      · exact List.mem_cons_of_mem a (mem_dropDupByAux_sub key t _ x h)

theorem key_not_seen_of_mem_dropDupByAux {κ : Type} [DecidableEq κ] (key : α → κ) :
    ∀ (l : List α) (seen : List κ) (x : α),
      x ∈ dropDupByAux key seen l → key x ∉ seen
  | [], _, x, h => by simp [dropDupByAux] at h
  | a :: t, seen, x, h => by
    rw [dropDupByAux] at h
    by_cases ha : key a ∈ seen
    · rw [if_pos ha] at h
      exact key_not_seen_of_mem_dropDupByAux key t seen x h
    · rw [if_neg ha] at h
      rcases List.mem_cons.mp h with rfl | h
      · exact ha
      · have := key_not_seen_of_mem_dropDupByAux key t _ x h
        intro hc
        exact this (List.mem_cons_of_mem _ hc)

theorem dropDupByAux_nodup_keys {κ : Type} [DecidableEq κ] (key : α → κ) :
    ∀ (l : List α) (seen : List κ), ((dropDupByAux key seen l).map key).Nodup
  | [], _ => by simp [dropDupByAux]
  | a :: t, seen => by
    rw [dropDupByAux]
    by_cases ha : key a ∈ seen
    · rw [if_pos ha]
      exact dropDupByAux_nodup_keys key t seen
    · rw [if_neg ha]
      simp only [List.map_cons, List.nodup_cons]
      refine ⟨?_, dropDupByAux_nodup_keys key t _⟩
      intro hmem
      rcases List.mem_map.mp hmem with ⟨x, hx, hkx⟩
      have := key_not_seen_of_mem_dropDupByAux key t _ x hx
      exact this (by rw [hkx]; exact List.mem_cons_self _ _)

theorem dropDupBy_nodup_keys {κ : Type} [DecidableEq κ] (key : α → κ) (l : List α) :
    ((dropDupBy key l).map key).Nodup :=
  dropDupByAux_nodup_keys key l []

theorem find?_dropDupByAux {κ : Type} [DecidableEq κ] (key : α → κ) (k : κ) :
    ∀ (l : List α) (seen : List κ), k ∉ seen →
      (dropDupByAux key seen l).find? (fun x => decide (key x = k)) =
        l.find? (fun x => decide (key x = k))
  | [], _, _ => by simp [dropDupByAux]
  | a :: t, seen, hk => by
    rw [dropDupByAux]
    by_cases ha : key a ∈ seen
    · rw [if_pos ha]
      have hne : ¬ key a = k := fun hc => hk (hc ▸ ha)
      rw [find?_dropDupByAux key k t seen hk, List.find?_cons]
      simp [hne]
    · rw [if_neg ha]
      by_cases hak : key a = k
      · simp [List.find?_cons, hak]
      · have hk' : k ∉ key a :: seen := by
          intro hc
          rcases List.mem_cons.mp hc with rfl | hc
          · exact hak rfl
          · exact hk hc
        have h2 := find?_dropDupByAux key k t _ hk'
        rw [List.find?_cons, List.find?_cons, h2]

/-- `dropDupBy` keeps, for every key value, exactly the first row of the input
carrying that key. -/
theorem find?_dropDupBy {κ : Type} [DecidableEq κ] (key : α → κ) (k : κ)
    (l : List α) :
    (dropDupBy key l).find? (fun x => decide (key x = k)) =
      l.find? (fun x => decide (key x = k)) :=
  find?_dropDupByAux key k l [] (by simp)

theorem leKey_total (x y : Nat × Nat) : leKey x y = true ∨ leKey y x = true := by
  simp only [leKey, decide_eq_true_eq]
  omega

theorem leKey_trans (x y z : Nat × Nat) :
    leKey x y = true → leKey y z = true → leKey x z = true := by
  simp only [leKey, decide_eq_true_eq]
  omega

theorem leKey_antisymm (x y : Nat × Nat) :
    leKey x y = true → leKey y x = true → x = y := by
  simp only [leKey, decide_eq_true_eq]
  rcases x with ⟨a, b⟩
  rcases y with ⟨c, d⟩
  simp only [Prod.mk.injEq]
  omega

theorem lePred_refl_of_key {a b : PredRow} (h : keyP a = keyP b) :
    lePred a b = true := by
  simp [lePred, leKey, h]

theorem leMkt_refl_of_key {a b : MktRow} (h : keyM a = keyM b) :
    leMkt a b = true := by
  simp [leMkt, leKey, h]

theorem leScore_total (a b : JRow) : leScore a b = true ∨ leScore b a = true := by
  simp only [leScore, decide_eq_true_eq]
  exact le_total a.pred b.pred

theorem leScore_trans (a b c : JRow) :
    leScore a b = true → leScore b c = true → leScore a c = true := by
  simp only [leScore, decide_eq_true_eq]
  exact le_trans

theorem leNat_total (a b : Nat) : leNat a b = true ∨ leNat b a = true := by
  simp only [leNat, decide_eq_true_eq]
  omega

theorem leNat_trans (a b c : Nat) :
    leNat a b = true → leNat b c = true → leNat a c = true := by
  simp only [leNat, decide_eq_true_eq]
  omega

theorem posVec_length (n ks kl : Nat) : (posVec n ks kl).length = n := by
  simp [posVec]

/-- Without bucket overlap the position vector is: `k_short` short slots, a
flat middle, `k_long` long slots. -/
theorem posVec_split (n ks kl : Nat) (hov : ks + kl ≤ n) :
    posVec n ks kl =
      List.replicate ks (-(ks : ℚ)⁻¹) ++ List.replicate (n - (ks + kl)) 0 ++
        List.replicate kl (kl : ℚ)⁻¹ := by
  apply List.ext_getElem
  · simp [posVec]
    omega
  · intro i h1 h2
    simp only [posVec, List.getElem_map, List.getElem_range]
    simp only [posVec, List.length_map, List.length_range] at h1
    by_cases c1 : i < ks
    · have hab : i < (List.replicate ks (-(ks : ℚ)⁻¹) ++
          List.replicate (n - (ks + kl)) (0 : ℚ)).length := by
        simp
        omega
      rw [List.getElem_append_left hab,
        List.getElem_append_left (by simpa using c1), List.getElem_replicate]
      have h3 : ¬ n ≤ i + kl := by omega
      simp [h3, c1]
    · by_cases c2 : i < ks + (n - (ks + kl))
      · have hab : i < (List.replicate ks (-(ks : ℚ)⁻¹) ++
            List.replicate (n - (ks + kl)) (0 : ℚ)).length := by
          simp
          omega
        rw [List.getElem_append_left hab,
          List.getElem_append_right (by simpa using c1), List.getElem_replicate]
        have h3 : ¬ n ≤ i + kl := by omega
        simp [h3, c1]
      · have hab : (List.replicate ks (-(ks : ℚ)⁻¹) ++
            List.replicate (n - (ks + kl)) (0 : ℚ)).length ≤ i := by
          simp
          omega
        rw [List.getElem_append_right hab, List.getElem_replicate]
        have h3 : n ≤ i + kl := by omega
        simp [h3]

/-- With bucket overlap (`n < ks + kl`) the long assignment overwrites the
short one on the overlap slots: only `n - kl` short slots survive. -/
theorem posVec_split_overlap (n ks kl : Nat) (hov : n < ks + kl)
    (hks : ks ≤ n) (hkl : kl ≤ n) :
    posVec n ks kl =
      List.replicate (n - kl) (-(ks : ℚ)⁻¹) ++ List.replicate kl (kl : ℚ)⁻¹ := by
  apply List.ext_getElem
  · simp [posVec]
    omega
  · intro i h1 h2
    simp only [posVec, List.getElem_map, List.getElem_range]
    simp only [posVec, List.length_map, List.length_range] at h1
    by_cases c1 : i < n - kl
    · rw [List.getElem_append_left (by simpa using c1)]
      rw [List.getElem_replicate]
      have h3 : ¬ n ≤ i + kl := by omega
      have h4 : i < ks := by omega
      simp [h3, h4]
    · rw [List.getElem_append_right (by simpa using c1)]
      rw [List.getElem_replicate]
      have h3 : n ≤ i + kl := by omega
      simp [h3]

theorem kOf_pos (q : ℚ) (n : Nat) : 1 ≤ kOf q n := by
  simp only [kOf]
  omega

theorem kOf_ne_zero (q : ℚ) (n : Nat) : (kOf q n : ℚ) ≠ 0 := by
  have := kOf_pos q n
  exact Nat.cast_ne_zero.mpr (by omega)

theorem length_sortLe (le : α → α → Bool) (l : List α) :
    (sortLe le l).length = l.length :=
  (sortLe_perm le l).length_eq

theorem dayPosList_big (lq sq : ℚ) (day : List JRow) (h : ¬ day.length < 20) :
    dayPosList lq sq day =
      (sortLe leScore day).zip
        (posVec day.length (kOf sq day.length) (kOf lq day.length)) := by
  simp [dayPosList, h]

theorem dayPosList_map_fst (lq sq : ℚ) (day : List JRow) (h : ¬ day.length < 20) :
    (dayPosList lq sq day).map Prod.fst = sortLe leScore day := by
  rw [dayPosList_big lq sq day h]
  apply List.map_fst_zip
  rw [posVec_length, length_sortLe]

theorem dayPosList_map_snd (lq sq : ℚ) (day : List JRow) (h : ¬ day.length < 20) :
    (dayPosList lq sq day).map Prod.snd =
      posVec day.length (kOf sq day.length) (kOf lq day.length) := by
  rw [dayPosList_big lq sq day h]
  apply List.map_snd_zip
  rw [posVec_length, length_sortLe]

theorem inv_k_pos (k : Nat) (hk : 1 ≤ k) : (0 : ℚ) < (k : ℚ)⁻¹ := by
  apply inv_pos.mpr
  exact_mod_cast hk

theorem sum_replicate_inv (k : Nat) (hk : 1 ≤ k) :
    (List.replicate k ((k : ℚ)⁻¹)).sum = 1 := by
  rw [List.sum_replicate, nsmul_eq_mul]
  exact mul_inv_cancel₀ (Nat.cast_ne_zero.mpr (by omega))

theorem sum_replicate_neg_inv (k : Nat) (hk : 1 ≤ k) :
    (List.replicate k (-(k : ℚ)⁻¹)).sum = -1 := by
  rw [List.sum_replicate, smul_neg, nsmul_eq_mul,
    mul_inv_cancel₀ (Nat.cast_ne_zero.mpr (by omega))]

/-! ## The claims -/

/-- **C2.**  Under the quantile policy, per date: if the cross-section has
fewer than `n_min = 20` joined rows every weight is `0`; otherwise, with
`k_short = max(1, ⌊q_s·n⌋)` and `k_long = max(1, ⌊q_l·n⌋)` over the
score-ascending ordering of the day (a permutation of the day sorted by
score), the first `k_short` rows get `-1/k_short`, the last `k_long` rows get
`+1/k_long`, the middle gets `0`; absent bucket overlap the positive weights
sum to `1`, the negative weights sum to `-1`, and exactly `k_short + k_long`
rows carry a nonzero weight. -/
theorem claim_C2 (lq sq : ℚ) (day : List JRow) :
    (day.length < 20 → ∀ x ∈ dayPosList lq sq day, x.2 = 0) ∧
    (20 ≤ day.length →
      ((dayPosList lq sq day).map Prod.fst).Perm day ∧
      ((dayPosList lq sq day).map Prod.fst).Pairwise (fun a b => a.pred ≤ b.pred) ∧
      (kOf sq day.length + kOf lq day.length ≤ day.length →
        ((dayPosList lq sq day).map Prod.snd =
          List.replicate (kOf sq day.length) (-(kOf sq day.length : ℚ)⁻¹) ++
            List.replicate (day.length - (kOf sq day.length + kOf lq day.length)) 0 ++
            List.replicate (kOf lq day.length) ((kOf lq day.length : ℚ)⁻¹)) ∧
        (((dayPosList lq sq day).map Prod.snd).filter (fun x => decide (0 < x))).sum = 1 ∧
        (((dayPosList lq sq day).map Prod.snd).filter (fun x => decide (x < 0))).sum = -1 ∧
        ((dayPosList lq sq day).map Prod.snd).countP (fun x => decide (¬ x = 0)) =
          kOf sq day.length + kOf lq day.length)) := by
  constructor
  · intro h x hx
    rw [dayPosList] at hx
    simp only [h, if_pos] at hx
    rcases List.mem_map.mp hx with ⟨r, _, rfl⟩
    rfl
  · intro h
    have hn : ¬ day.length < 20 := by omega
    refine ⟨?_, ?_, ?_⟩
    · rw [dayPosList_map_fst lq sq day hn]
      exact sortLe_perm leScore day
    · rw [dayPosList_map_fst lq sq day hn]
      have := sortLe_pairwise leScore leScore_total leScore_trans day
      exact this.imp (fun hxy => by simpa [leScore] using hxy)
    · intro hov
      have hks := kOf_pos sq day.length
      have hkl := kOf_pos lq day.length
      have hsplit := posVec_split day.length (kOf sq day.length) (kOf lq day.length) hov
      have hmap := dayPosList_map_snd lq sq day hn
      have hpos : (0 : ℚ) < (kOf lq day.length : ℚ)⁻¹ := inv_k_pos _ hkl
      have hneg : -(kOf sq day.length : ℚ)⁻¹ < 0 := by
        have := inv_k_pos _ hks
        linarith
      refine ⟨hmap.trans hsplit, ?_, ?_, ?_⟩
      · rw [hmap, hsplit]
        have h1 : ¬ (0 : ℚ) < -(kOf sq day.length : ℚ)⁻¹ := by linarith
        have h2 : ¬ (0 : ℚ) < (0 : ℚ) := lt_irrefl 0
        simp only [List.filter_append, List.filter_replicate, h1, h2, hpos,
          decide_eq_true_eq, if_neg, if_pos, decide_eq_false_iff_not,
          not_false_eq_true, List.append_nil, List.nil_append]
        exact sum_replicate_inv _ hkl
      · rw [hmap, hsplit]
        have h1 : ¬ (kOf lq day.length : ℚ)⁻¹ < 0 := by linarith
        have h2 : ¬ (0 : ℚ) < (0 : ℚ) := lt_irrefl 0
        simp only [List.filter_append, List.filter_replicate, h1, hneg,
          lt_irrefl, decide_eq_true_eq, if_neg, if_pos, decide_eq_false_iff_not,
          not_false_eq_true, List.append_nil, List.nil_append]
        exact sum_replicate_neg_inv _ hks
      · rw [hmap, hsplit]
        have h1 : -(kOf sq day.length : ℚ)⁻¹ ≠ 0 := by linarith
        have h2 : (kOf lq day.length : ℚ)⁻¹ ≠ 0 := by linarith
        simp only [List.countP_append, List.countP_eq_length_filter,
          List.filter_replicate]
        simp [h1, h2]

/-- **C10.**  On a date with `n ≥ 20` and overlapping buckets
(`k_short + k_long > n`, with both bucket sizes at most `n` so the slicing
ranges are meaningful), the long assignment runs after the short one and
overwrites it: over the score-sorted day only the first `n - k_long` slots
keep the short weight and the last `k_long` slots — including every slot in
both the bottom `k_short` and the top `k_long` — carry `+1/k_long`; positive
weights still sum to `1`, while negative weights sum to
`-(n - k_long)/k_short`, which is strictly greater than `-1`. -/
theorem claim_C10 (lq sq : ℚ) (day : List JRow)
    (h : 20 ≤ day.length)
    (hov : day.length < kOf sq day.length + kOf lq day.length)
    (hks : kOf sq day.length ≤ day.length)
    (hkl : kOf lq day.length ≤ day.length) :
    ((dayPosList lq sq day).map Prod.snd =
      List.replicate (day.length - kOf lq day.length) (-(kOf sq day.length : ℚ)⁻¹) ++
        List.replicate (kOf lq day.length) ((kOf lq day.length : ℚ)⁻¹)) ∧
    (∀ (j : Nat) (hj : j < (dayPosList lq sq day).length),
      day.length - kOf lq day.length ≤ j → j < kOf sq day.length →
        ((dayPosList lq sq day).get ⟨j, hj⟩).2 = (kOf lq day.length : ℚ)⁻¹) ∧
    (((dayPosList lq sq day).map Prod.snd).filter (fun x => decide (0 < x))).sum = 1 ∧
    (((dayPosList lq sq day).map Prod.snd).filter (fun x => decide (x < 0))).sum =
      -(((day.length - kOf lq day.length : Nat) : ℚ) / (kOf sq day.length : ℚ)) ∧
    -1 < (((dayPosList lq sq day).map Prod.snd).filter (fun x => decide (x < 0))).sum := by
  have hn : ¬ day.length < 20 := by omega
  have hks1 := kOf_pos sq day.length
  have hkl1 := kOf_pos lq day.length
  have hmap := dayPosList_map_snd lq sq day hn
  have hsplit := posVec_split_overlap day.length (kOf sq day.length)
    (kOf lq day.length) hov hks hkl
  have hpos : (0 : ℚ) < (kOf lq day.length : ℚ)⁻¹ := inv_k_pos _ hkl1
  have hneg : -(kOf sq day.length : ℚ)⁻¹ < 0 := by
    have := inv_k_pos _ hks1
    linarith
  have hnsum : (((dayPosList lq sq day).map Prod.snd).filter
      (fun x => decide (x < 0))).sum =
      -(((day.length - kOf lq day.length : Nat) : ℚ) / (kOf sq day.length : ℚ)) := by
    rw [hmap, hsplit]
    have h1 : ¬ (kOf lq day.length : ℚ)⁻¹ < 0 := by linarith
    simp only [List.filter_append, List.filter_replicate]
    simp [hneg, h1]
    exact (div_eq_mul_inv _ _).symm
  refine ⟨hmap.trans hsplit, ?_, ?_, hnsum, ?_⟩
  · intro j hj h1 h2
    have hj2 : j < ((dayPosList lq sq day).map Prod.snd).length := by simpa using hj
    have hmap2 : ((dayPosList lq sq day).map Prod.snd) =
        List.replicate (day.length - kOf lq day.length) (-(kOf sq day.length : ℚ)⁻¹) ++
          List.replicate (kOf lq day.length) ((kOf lq day.length : ℚ)⁻¹) :=
      hmap.trans hsplit
    have hget : ((dayPosList lq sq day).get ⟨j, hj⟩).2 =
        ((dayPosList lq sq day).map Prod.snd)[j] := by
      simp
    rw [hget, List.getElem_of_eq hmap2 hj2,
      List.getElem_append_right (by simpa using h1), List.getElem_replicate]
  · rw [hmap, hsplit]
    have h1 : ¬ (0 : ℚ) < -(kOf sq day.length : ℚ)⁻¹ := by linarith
    simp only [List.filter_append, List.filter_replicate]
    simp [h1, hpos]
    exact mul_inv_cancel₀ (kOf_ne_zero lq day.length)
  · rw [hnsum]
    have hlt : ((day.length - kOf lq day.length : Nat) : ℚ) < (kOf sq day.length : ℚ) := by
      exact_mod_cast (by omega : day.length - kOf lq day.length < kOf sq day.length)
    have hkpos : (0 : ℚ) < (kOf sq day.length : ℚ) := by exact_mod_cast hks1
    have : ((day.length - kOf lq day.length : Nat) : ℚ) / (kOf sq day.length : ℚ) < 1 :=
      (div_lt_one hkpos).mpr hlt
    linarith

/-- **C1.**  For every row of the joined data, the per-symbol daily pnl equals
`prev_weight * realized_return - fee_rate * |weight - prev_weight|` with
`fee_rate = fee_bps / 10000`, where `prev_weight` is the symbol's weight on
its previous appearance in the joined frame and `0` on its first appearance;
in particular `pnl = 0.02` at `realized_return = 0.02`, `prev_weight = 1`,
`fee_bps = 10` and zero turnover. -/
theorem claim_C1 (preds : List PredRow) (market : List MktRow)
    (lq sq feeBps : ℚ) (i : Nat)
    (h : i < (pnlRows lq sq feeBps (dfJoined preds market)).length) :
    ((pnlRows lq sq feeBps (dfJoined preds market)).get ⟨i, h⟩).pnlSym =
      ((pnlRows lq sq feeBps (dfJoined preds market)).get ⟨i, h⟩).posPrev *
          ((pnlRows lq sq feeBps (dfJoined preds market)).get ⟨i, h⟩).ret -
        (feeBps / 10000) *
          |((pnlRows lq sq feeBps (dfJoined preds market)).get ⟨i, h⟩).pos -
            ((pnlRows lq sq feeBps (dfJoined preds market)).get ⟨i, h⟩).posPrev| ∧
    ((pnlRows lq sq feeBps (dfJoined preds market)).get ⟨i, h⟩).posPrev =
      (((((pnlRows lq sq feeBps (dfJoined preds market)).take i).filter
          (fun x => decide (x.symbol =
            ((pnlRows lq sq feeBps (dfJoined preds market)).get ⟨i, h⟩).symbol))).getLast?).map
        (fun x => x.pos)).getD 0 ∧
    pnlFormula 1 (2 / 100) (10 / 10000) 1 = 2 / 100 := by
  refine ⟨?_, ?_, by norm_num [pnlFormula]⟩
  · have hmem : (pnlRows lq sq feeBps (dfJoined preds market)).get ⟨i, h⟩ ∈
        pnlRows lq sq feeBps (dfJoined preds market) := List.get_mem _ _ _
    have := buildPnl_mem_formula (feeBps / 10000) (withPos lq sq (dfJoined preds market))
      [] _ hmem
    rw [this.1, pnlFormula]
  · have hb := buildPnl_posPrev (feeBps / 10000)
      (withPos lq sq (dfJoined preds market)) [] i h
    simp only [pnlRows]
    rw [hb]
    simp [prevOf_nil]

/-- Witness for C1: the one-row run on `predsW`/`mktW`, at row `0`, satisfies
the pnl identity with `prev_weight = 0` on the symbol's first appearance. -/
theorem claim_C1_witness :
    (0 < (pnlRows (1 / 10) (1 / 10) 1 (dfJoined predsW mktW)).length) ∧
    ((pnlRows (1 / 10) (1 / 10) 1 (dfJoined predsW mktW)).get
        ⟨0, by decide⟩).pnlSym =
      ((pnlRows (1 / 10) (1 / 10) 1 (dfJoined predsW mktW)).get
          ⟨0, by decide⟩).posPrev *
          ((pnlRows (1 / 10) (1 / 10) 1 (dfJoined predsW mktW)).get
            ⟨0, by decide⟩).ret -
        ((1 : ℚ) / 10000) *
          |((pnlRows (1 / 10) (1 / 10) 1 (dfJoined predsW mktW)).get
              ⟨0, by decide⟩).pos -
            ((pnlRows (1 / 10) (1 / 10) 1 (dfJoined predsW mktW)).get
              ⟨0, by decide⟩).posPrev| ∧
    ((pnlRows (1 / 10) (1 / 10) 1 (dfJoined predsW mktW)).get
        ⟨0, by decide⟩).posPrev =
      (((((pnlRows (1 / 10) (1 / 10) 1 (dfJoined predsW mktW)).take 0).filter
          (fun x => decide (x.symbol =
            ((pnlRows (1 / 10) (1 / 10) 1 (dfJoined predsW mktW)).get
              ⟨0, by decide⟩).symbol))).getLast?).map
        (fun x => x.pos)).getD 0 ∧
    pnlFormula 1 (2 / 100) (10 / 10000) 1 = 2 / 100 :=
  ⟨by decide, claim_C1 predsW mktW (1 / 10) (1 / 10) 1 0 (by decide)⟩

theorem find?_eq_head_filter (p : α → Bool) (l : List α) :
    l.find? p = (l.filter p).head? := by
  induction l with
  | nil => rfl
  | cons a t ih =>
    by_cases h : p a = true
    · rw [List.find?_cons_of_pos _ h, List.filter_cons, if_pos h]
      rfl
    · rw [List.find?_cons_of_neg _ h, List.filter_cons, if_neg h]
      exact ih

theorem lePred_total (a b : PredRow) : lePred a b = true ∨ lePred b a = true :=
  leKey_total _ _

theorem lePred_trans (a b c : PredRow) :
    lePred a b = true → lePred b c = true → lePred a c = true :=
  leKey_trans _ _ _

theorem leMkt_total (a b : MktRow) : leMkt a b = true ∨ leMkt b a = true :=
  leKey_total _ _

theorem leMkt_trans (a b c : MktRow) :
    leMkt a b = true → leMkt b c = true → leMkt a c = true :=
  leKey_trans _ _ _

/-- **C4 (counterexample).**  The claim says duplicates are resolved by
keeping the *last* occurrence in input order.  The code sorts stably and then
calls `drop_duplicates` with the default `keep="first"`: on two rows with the
same `(symbol, ts)` key it keeps the first occurrence (score `5`), not the
last (score `7`). -/
theorem claim_C4_counterexample :
    canonPreds [⟨1, 1, 5⟩, ⟨1, 1, 7⟩] = [⟨1, 1, 5⟩] ∧
    canonPreds [⟨1, 1, 5⟩, ⟨1, 1, 7⟩] ≠ [⟨1, 1, 7⟩] := by
  decide

/-- **C4 (amended).**  Both inputs are reduced to exactly one row per
`(symbol, ts)` key before any further computation, and the row kept is the
*first* occurrence in the original input order: the de-duplicated table has
pairwise-distinct keys, and its unique row for any key `k` is exactly
`find?` of the original input — its first row with key `k`. -/
theorem claim_C4_amended :
    (∀ l : List PredRow, (((canonPreds l).map keyP).Nodup) ∧
      ∀ k : Nat × Nat, (canonPreds l).find? (fun r => decide (keyP r = k)) =
        l.find? (fun r => decide (keyP r = k))) ∧
    (∀ l : List MktRow, (((canonMkt l).map keyM).Nodup) ∧
      ∀ k : Nat × Nat, (canonMkt l).find? (fun r => decide (keyM r = k)) =
        l.find? (fun r => decide (keyM r = k))) := by
  constructor
  · intro l
    refine ⟨dropDupBy_nodup_keys keyP _, ?_⟩
    intro k
    rw [canonPreds, find?_dropDupBy, find?_eq_head_filter, find?_eq_head_filter]
    rw [filter_sortLe lePred _ ?_ l]
    intro x y hx hy
    simp only [decide_eq_true_eq] at hx hy
    exact lePred_refl_of_key (hx.trans hy.symm)
  · intro l
    refine ⟨dropDupBy_nodup_keys keyM _, ?_⟩
    intro k
    rw [canonMkt, find?_dropDupBy, find?_eq_head_filter, find?_eq_head_filter]
    rw [filter_sortLe leMkt _ ?_ l]
    intro x y hx hy
    simp only [decide_eq_true_eq] at hx hy
    exact leMkt_refl_of_key (hx.trans hy.symm)

/-- **C5.**  The engine canonicalizes the predictions table by a stable
`(symbol, ts)` sort before anything order-dependent happens, so on inputs
with pairwise-distinct `(symbol, ts)` keys the whole result is invariant
under any reordering of the input rows — in particular under reordering rows
with exactly equal scores; equal-score rows are then ranked in the canonical
symbol order. -/
theorem claim_C5 (p1 p2 : List PredRow) (market : List MktRow)
    (lq sq feeBps : ℚ) (hperm : p1.Perm p2) (hkeys : (p1.map keyP).Nodup) :
    backtest_rank_ls p1 market lq sq feeBps =
      backtest_rank_ls p2 market lq sq feeBps := by
  have hsort : sortLe lePred p1 = sortLe lePred p2 := by
    apply sortedPermEq lePred keyP
      (fun x y h1 h2 => leKey_antisymm _ _ h1 h2)
    · exact ((sortLe_perm lePred p1).trans hperm).trans (sortLe_perm lePred p2).symm
    · exact sortLe_pairwise lePred lePred_total lePred_trans p1
    · exact sortLe_pairwise lePred lePred_total lePred_trans p2
    · exact (((sortLe_perm lePred p1).map keyP).nodup_iff).mpr hkeys
  have hcanon : canonPreds p1 = canonPreds p2 := by
    rw [canonPreds, canonPreds, hsort]
  simp only [backtest_rank_ls, dfJoined, hcanon]

/-- Witness for C5: two predictions tables that differ only in the order of
two equal-score rows yield identical outputs. -/
theorem claim_C5_witness :
    (([⟨2, 2, 5⟩, ⟨1, 2, 5⟩] : List PredRow).Perm [⟨1, 2, 5⟩, ⟨2, 2, 5⟩]) ∧
    backtest_rank_ls [⟨2, 2, 5⟩, ⟨1, 2, 5⟩] mktW (1 / 10) (1 / 10) 1 =
      backtest_rank_ls [⟨1, 2, 5⟩, ⟨2, 2, 5⟩] mktW (1 / 10) (1 / 10) 1 :=
  ⟨by decide, claim_C5 [⟨2, 2, 5⟩, ⟨1, 2, 5⟩] [⟨1, 2, 5⟩, ⟨2, 2, 5⟩] mktW
    (1 / 10) (1 / 10) 1 (by decide) (by decide)⟩

theorem mkDaily_nil (acc : ℚ) : mkDaily acc [] = [] := rfl

theorem mkDaily_cons (acc : ℚ) (t : Nat) (p : ℚ) (rest : List (Nat × ℚ)) :
    mkDaily acc ((t, p) :: rest) =
      (⟨t, p, acc * (1 + p)⟩ : DailyRow) :: mkDaily (acc * (1 + p)) rest := rfl

theorem mkDaily_map_ts : ∀ (l : List (Nat × ℚ)) (acc : ℚ),
    (mkDaily acc l).map (fun r => r.ts) = l.map Prod.fst
  | [], _ => rfl
  | (t, p) :: rest, acc => by
    rw [mkDaily_cons]
    simp [mkDaily_map_ts rest]

theorem mkDaily_mem : ∀ (l : List (Nat × ℚ)) (acc : ℚ) (r : DailyRow),
    r ∈ mkDaily acc l → ∃ q ∈ l, r.ts = q.1 ∧ r.pnl = q.2
  | [], _, r, hr => by simp [mkDaily_nil] at hr
  | (t, p) :: rest, acc, r, hr => by
    rw [mkDaily_cons] at hr
    rcases List.mem_cons.mp hr with rfl | hr
    · exact ⟨(t, p), List.mem_cons_self _ _, rfl, rfl⟩
    · rcases mkDaily_mem rest (acc * (1 + p)) r hr with ⟨q, hq, h1, h2⟩
      exact ⟨q, List.mem_cons_of_mem _ hq, h1, h2⟩

theorem mkDaily_step : ∀ (l : List (Nat × ℚ)) (acc : ℚ) (i : Nat)
    (h1 : i + 1 < (mkDaily acc l).length),
    ((mkDaily acc l).get ⟨i + 1, h1⟩).equity =
      ((mkDaily acc l).get ⟨i, by omega⟩).equity *
        (1 + ((mkDaily acc l).get ⟨i + 1, h1⟩).pnl)
  | [], acc, i, h1 => by simp [mkDaily_nil] at h1
  | (t, p) :: rest, acc, 0, h1 => by
    rcases rest with _ | ⟨⟨t2, p2⟩, r2⟩
    · rw [mkDaily_cons, mkDaily_nil] at h1
      simp at h1
    · rfl
  | (t, p) :: rest, acc, i + 1, h1 => by
    have h2 : i + 1 < (mkDaily (acc * (1 + p)) rest).length := by
      rw [mkDaily_cons] at h1
      simpa using h1
    have IH := mkDaily_step rest (acc * (1 + p)) i h2
    simp only [mkDaily_cons, List.get_eq_getElem, List.getElem_cons_succ]
    simp only [List.get_eq_getElem] at IH
    exact IH

theorem mkDaily_pos : ∀ (l : List (Nat × ℚ)) (acc : ℚ), 0 < acc →
    (∀ r ∈ mkDaily acc l, -1 < r.pnl) → ∀ r ∈ mkDaily acc l, 0 < r.equity
  | [], _, _, _, r, hr => by simp [mkDaily_nil] at hr
  | (t, p) :: rest, acc, hacc, hp, r, hr => by
    have hhead : -1 < p := by
      have := hp ⟨t, p, acc * (1 + p)⟩ (by rw [mkDaily_cons]; exact List.mem_cons_self _ _)
      exact this
    have hacc2 : 0 < acc * (1 + p) := mul_pos hacc (by linarith)
    rw [mkDaily_cons] at hr
    rcases List.mem_cons.mp hr with rfl | hr
    · exact hacc2
    · refine mkDaily_pos rest (acc * (1 + p)) hacc2 ?_ r hr
      intro x hx
      exact hp x (by rw [mkDaily_cons]; exact List.mem_cons_of_mem _ hx)

theorem dailyTable_ts_pairwise (rows : List PRow) :
    ((dailyTable rows).map (fun r => r.ts)).Pairwise (· < ·) := by
  rw [dailyTable, mkDaily_map_ts]
  have hmap : (dailyPnls rows).map Prod.fst = tsList rows := by
    rw [dailyPnls, List.map_map]
    have heq : (Prod.fst ∘ fun t =>
        (t, ((rows.filter (fun r => decide (r.ts = t))).map (fun r => r.pnlSym)).sum)) =
        (id : Nat → Nat) := rfl
    rw [heq, List.map_id]
  rw [hmap, tsList]
  have h1 := sortLe_pairwise leNat leNat_total leNat_trans
    (dropDupBy id (rows.map (fun r => r.ts)))
  have h2 : (sortLe leNat (dropDupBy id (rows.map (fun r => r.ts)))).Nodup := by
    have hd : ((dropDupBy id (rows.map (fun r => r.ts))).map id).Nodup :=
      dropDupBy_nodup_keys id _
    rw [List.map_id] at hd
    exact ((sortLe_perm leNat _).nodup_iff).mpr hd
  refine (h1.and h2).imp ?_
  intro a b hab
  rcases hab with ⟨hle, hne⟩
  simp only [leNat, decide_eq_true_eq] at hle
  omega

/-- **C3 (counterexample).**  The claim says the equity at the first date is
exactly `1`.  The code computes `equity = (1 + pnl).cumprod()`, whose first
entry is `1 + pnl(first date)`.  On a first date that trades (20 symbols,
default parameters), every symbol is at its first appearance, so
`pnl = -fee * gross = -0.0002` and the first equity is `0.9998`, not `1`. -/
theorem claim_C3_counterexample :
    ((backtest_rank_ls preds20 mkt20 (1 / 10) (1 / 10) 1).daily.head?.map
      (fun r => r.equity)) = some (4999 / 5000) ∧
    ((4999 : ℚ) / 5000) ≠ 1 := by
  constructor
  · decide
  · norm_num

/-- **C3 (amended).**  For every run: the equity at the first date equals
`1 + pnl(first date)` (the cumulative product starts at `1` *before* the
first day's pnl is applied); each later equity is the previous equity times
`(1 + pnl)`; the dates are strictly ascending; and equity stays strictly
positive whenever no single-period pnl is `≤ -1`. -/
theorem claim_C3_amended (preds : List PredRow) (market : List MktRow)
    (lq sq feeBps : ℚ) :
    (∀ hd ∈ (backtest_rank_ls preds market lq sq feeBps).daily.head?,
      hd.equity = 1 + hd.pnl) ∧
    (∀ (i : Nat) (h1 : i + 1 < (backtest_rank_ls preds market lq sq feeBps).daily.length),
      ((backtest_rank_ls preds market lq sq feeBps).daily.get ⟨i + 1, h1⟩).equity =
        ((backtest_rank_ls preds market lq sq feeBps).daily.get ⟨i, by omega⟩).equity *
          (1 + ((backtest_rank_ls preds market lq sq feeBps).daily.get ⟨i + 1, h1⟩).pnl)) ∧
    (((backtest_rank_ls preds market lq sq feeBps).daily.map
      (fun r => r.ts)).Pairwise (· < ·)) ∧
    ((∀ r ∈ (backtest_rank_ls preds market lq sq feeBps).daily, -1 < r.pnl) →
      ∀ r ∈ (backtest_rank_ls preds market lq sq feeBps).daily, 0 < r.equity) := by
  have hbt : (backtest_rank_ls preds market lq sq feeBps).daily =
      dailyTable (pnlRows lq sq feeBps (dfJoined preds market)) := rfl
  rw [hbt]
  refine ⟨?_, ?_, dailyTable_ts_pairwise _, ?_⟩
  · rw [dailyTable]
    rcases hl : dailyPnls (pnlRows lq sq feeBps (dfJoined preds market)) with _ | ⟨⟨t, p⟩, rest⟩
    · simp [mkDaily_nil]
    · rw [mkDaily_cons]
      intro hd hmem
      simp only [List.head?_cons, Option.mem_def, Option.some.injEq] at hmem
      rw [← hmem]
      exact one_mul _
  · intro i h1
    exact mkDaily_step _ 1 i h1
  · exact mkDaily_pos _ 1 one_pos

/-- Witness for C3 (amended): a one-symbol two-day run; the second day's
equity is the first day's equity times `1 + pnl₂`. -/
theorem claim_C3_witness :
    (0 + 1 < (backtest_rank_ls predsW2 mktW3 (1 / 10) (1 / 10) 1).daily.length) ∧
    ((backtest_rank_ls predsW2 mktW3 (1 / 10) (1 / 10) 1).daily.get
        ⟨0 + 1, by decide⟩).equity =
      ((backtest_rank_ls predsW2 mktW3 (1 / 10) (1 / 10) 1).daily.get
          ⟨0, by decide⟩).equity *
        (1 + ((backtest_rank_ls predsW2 mktW3 (1 / 10) (1 / 10) 1).daily.get
          ⟨0 + 1, by decide⟩).pnl) :=
  ⟨by decide, (claim_C3_amended predsW2 mktW3 (1 / 10) (1 / 10) 1).2.1 0 (by decide)⟩

/-- Witness for C2: a thin day gets all-zero weights, and on a 20-row day
with the default quantiles the positive weights sum to `1`, the negative
weights to `-1`, and `k_short + k_long` rows are active. -/
theorem claim_C2_witness :
    (dayS.length < 20 ∧ (∀ x ∈ dayPosList (1 / 10) (1 / 10) dayS, x.2 = 0)) ∧
    (20 ≤ day20.length ∧
      kOf (1 / 10) day20.length + kOf (1 / 10) day20.length ≤ day20.length ∧
      (((dayPosList (1 / 10) (1 / 10) day20).map Prod.snd).filter
        (fun x => decide (0 < x))).sum = 1 ∧
      (((dayPosList (1 / 10) (1 / 10) day20).map Prod.snd).filter
        (fun x => decide (x < 0))).sum = -1 ∧
      ((dayPosList (1 / 10) (1 / 10) day20).map Prod.snd).countP
        (fun x => decide (¬ x = 0)) =
        kOf (1 / 10) day20.length + kOf (1 / 10) day20.length) := by
  refine ⟨⟨by decide, (claim_C2 (1 / 10) (1 / 10) dayS).1 (by decide)⟩,
    by decide, by decide, ?_, ?_, ?_⟩
  · exact (((claim_C2 (1 / 10) (1 / 10) day20).2 (by decide)).2.2 (by decide)).2.1
  · exact (((claim_C2 (1 / 10) (1 / 10) day20).2 (by decide)).2.2 (by decide)).2.2.1
  · exact (((claim_C2 (1 / 10) (1 / 10) day20).2 (by decide)).2.2 (by decide)).2.2.2

/-- Witness for C10: a 20-row day with `q_l = q_s = 0.6` has
`k_short = k_long = 12`, so the buckets overlap by four slots; positive
weights still sum to `1` and negative weights sum to strictly more
than `-1`. -/
theorem claim_C10_witness :
    (20 ≤ day20.length ∧
      day20.length < kOf (3 / 5) day20.length + kOf (3 / 5) day20.length ∧
      kOf (3 / 5) day20.length ≤ day20.length) ∧
    ((((dayPosList (3 / 5) (3 / 5) day20).map Prod.snd).filter
        (fun x => decide (0 < x))).sum = 1 ∧
      -1 < (((dayPosList (3 / 5) (3 / 5) day20).map Prod.snd).filter
        (fun x => decide (x < 0))).sum) :=
  ⟨⟨by decide, by decide, by decide⟩,
    (claim_C10 (3 / 5) (3 / 5) day20 (by decide) (by decide) (by decide)
      (by decide)).2.2.1,
    (claim_C10 (3 / 5) (3 / 5) day20 (by decide) (by decide) (by decide)
      (by decide)).2.2.2.2⟩

theorem varSample_none_iff (l : List ℚ) : varSample l = none ↔ l.length < 2 := by
  rw [varSample]
  by_cases h : 1 < l.length
  · rw [if_pos h]
    constructor
    · intro hc
      exact absurd hc (by simp)
    · intro hc
      omega
  · rw [if_neg h]
    constructor
    · intro _
      omega
    · intro _
      rfl

theorem varSample_nonneg (l : List ℚ) (v : ℚ) (hv : varSample l = some v) :
    0 ≤ v := by
  rw [varSample] at hv
  by_cases h : 1 < l.length
  · rw [if_pos h] at hv
    simp only [Option.some.injEq] at hv
    rw [← hv]
    apply div_nonneg
    · apply List.sum_nonneg
      intro x hx
      rcases List.mem_map.mp hx with ⟨y, _, rfl⟩
      positivity
    · have : (2 : ℚ) ≤ (l.length : ℚ) := by exact_mod_cast h
      linarith
  · rw [if_neg h] at hv
    exact absurd hv (by simp)

theorem minQ_eq_none_iff (l : List ℚ) : minQ l = none ↔ l = [] := by
  cases l <;> simp [minQ]

theorem cummaxAux_cons (acc x : ℚ) (t : List ℚ) :
    cummaxAux acc (x :: t) = max acc x :: cummaxAux (max acc x) t := rfl

theorem length_cummaxAux : ∀ (l : List ℚ) (acc : ℚ),
    (cummaxAux acc l).length = l.length
  | [], _ => rfl
  | x :: t, acc => by
    rw [cummaxAux_cons]
    simp [length_cummaxAux t]

theorem length_cummax : ∀ l : List ℚ, (cummax l).length = l.length
  | [] => rfl
  | x :: t => by
    rw [cummax]
    simp [length_cummaxAux t]

theorem drawdowns_length (E : List ℚ) : (drawdowns E).length = E.length := by
  rw [drawdowns, List.length_zipWith, length_cummax]
  exact min_self _

theorem drawdowns_eq_nil_iff (E : List ℚ) : drawdowns E = [] ↔ E = [] := by
  constructor
  · intro h
    have := congrArg List.length h
    rw [drawdowns_length] at this
    simpa using List.length_eq_zero.mp (by simpa using this)
  · intro h
    rw [h]
    rfl

theorem filterMap_id_eq_nil_iff (l : List (Option ℚ)) :
    l.filterMap id = [] ↔ ∀ x ∈ l, x = none := by
  induction l with
  | nil => simp
  | cons a t ih =>
    cases a <;> simp [List.filterMap_cons, ih]

theorem maxDrawdownOf_none_iff (eq : List ℚ) :
    maxDrawdownOf eq = none ↔ (eq = [] ∨ ∀ x ∈ drawdowns eq, x = none) := by
  rw [maxDrawdownOf]
  by_cases h : eq.isEmpty
  · rw [if_pos h]
    have : eq = [] := by simpa using h
    simp [this]
  · rw [if_neg h]
    rw [minSkipNone, minQ_eq_none_iff, filterMap_id_eq_nil_iff]
    constructor
    · intro hall
      exact Or.inr hall
    · intro hor
      rcases hor with hor | hor
      · exact absurd hor (by simpa using h)
      · exact hor

/-- **C8 (counterexample).**  The claim's "max_drawdown is NaN exactly when
the daily series is empty" fails on a reachable, float-exact input: at
`fee_bps = 5000` a 20-symbol first day books `pnl = -fee·gross = -1`
exactly, equity is exactly `0`, the sole drawdown entry is `0/0` (float NaN),
and `dd.min()` is NaN although the daily series is nonempty. -/
theorem claim_C8_counterexample :
    (backtest_rank_ls preds20 mkt20 (1 / 10) (1 / 10) 5000).daily ≠ [] ∧
    (backtest_rank_ls preds20 mkt20 (1 / 10) (1 / 10) 5000).metrics.maxDrawdown =
      none := by
  refine ⟨by decide, by decide⟩

/-- **C8 (amended).**  The metrics degrade to the NaN sentinel (`none`)
instead of raising: the (squared) daily volatility is the `ddof = 1` sample
variance and is `none` iff there are fewer than two daily observations; the
Sharpe ratio is finite iff the variance is defined and strictly positive —
equivalently, it is NaN exactly when the volatility is NaN or zero (the
variance is never negative); and the max drawdown is `none` exactly when the
daily series is empty *or every drawdown entry is itself NaN* (a zero running
maximum, reachable only by a day-one pnl of exactly `-1` driving equity to
exactly `0`) — in particular, whenever the first equity value is nonzero, the
max drawdown is `none` exactly when the daily series is empty. -/
theorem claim_C8_amended (preds : List PredRow) (market : List MktRow) (lq sq feeBps : ℚ) :
    (backtest_rank_ls preds market lq sq feeBps).metrics.volSq =
      varSample ((backtest_rank_ls preds market lq sq feeBps).daily.map (fun r => r.pnl)) ∧
    (varSample ((backtest_rank_ls preds market lq sq feeBps).daily.map (fun r => r.pnl)) = none ↔
      ((backtest_rank_ls preds market lq sq feeBps).daily.map (fun r => r.pnl)).length < 2) ∧
    (varSample ((backtest_rank_ls preds market lq sq feeBps).daily.map (fun r => r.pnl)) =
      if 1 < ((backtest_rank_ls preds market lq sq feeBps).daily.map (fun r => r.pnl)).length then
        some ((((backtest_rank_ls preds market lq sq feeBps).daily.map (fun r => r.pnl)).map
            (fun x => (x - meanQ ((backtest_rank_ls preds market lq sq feeBps).daily.map
              (fun r => r.pnl))) ^ 2)).sum /
          ((((backtest_rank_ls preds market lq sq feeBps).daily.map (fun r => r.pnl)).length : ℚ) - 1))
      else none) ∧
    ((backtest_rank_ls preds market lq sq feeBps).metrics.sharpeIsFinite = false ↔
      (varSample ((backtest_rank_ls preds market lq sq feeBps).daily.map (fun r => r.pnl)) = none ∨
        varSample ((backtest_rank_ls preds market lq sq feeBps).daily.map (fun r => r.pnl)) = some 0)) ∧
    ((backtest_rank_ls preds market lq sq feeBps).metrics.maxDrawdown = none ↔
      ((backtest_rank_ls preds market lq sq feeBps).daily = [] ∨
        ∀ x ∈ drawdowns ((backtest_rank_ls preds market lq sq feeBps).daily.map
          (fun r => r.equity)), x = none)) ∧
    (∀ e0 : ℚ,
      ((backtest_rank_ls preds market lq sq feeBps).daily.map (fun r => r.equity)).head? =
        some e0 → e0 ≠ 0 →
      ((backtest_rank_ls preds market lq sq feeBps).metrics.maxDrawdown = none ↔
        (backtest_rank_ls preds market lq sq feeBps).daily = [])) := by
  have hdd : (backtest_rank_ls preds market lq sq feeBps).metrics.maxDrawdown =
      maxDrawdownOf ((backtest_rank_ls preds market lq sq feeBps).daily.map
        (fun r => r.equity)) := rfl
  refine ⟨rfl, varSample_none_iff _, rfl, ?_, ?_, ?_⟩
  · have hsh : (backtest_rank_ls preds market lq sq feeBps).metrics.sharpeIsFinite =
        sharpeDefined ((backtest_rank_ls preds market lq sq feeBps).daily.map (fun r => r.pnl)) := rfl
    rw [hsh, sharpeDefined]
    rcases hv : varSample ((backtest_rank_ls preds market lq sq feeBps).daily.map (fun r => r.pnl)) with _ | v
    · rw [hv]
      simp
    · rw [hv]
      have hnn := varSample_nonneg _ v hv
      simp only [Option.some.injEq]
      constructor
      · intro hfalse
        right
        simp only [decide_eq_false_iff_not, not_lt] at hfalse
        linarith
      · intro hor
        rcases hor with hor | hor
        · exact absurd hor (by simp)
        · simp [← hor]
  · rw [hdd, maxDrawdownOf_none_iff, List.map_eq_nil_iff]
  · intro e0 he0 hne0
    constructor
    · intro hnone
      rw [hdd, maxDrawdownOf_none_iff] at hnone
      rcases hnone with h | hall
      · exact List.map_eq_nil_iff.mp h
      · rcases hE : (backtest_rank_ls preds market lq sq feeBps).daily.map
            (fun r => r.equity) with _ | ⟨e, t⟩
        · exact List.map_eq_nil_iff.mp hE
        · rw [hE] at he0 hall
          simp only [List.head?_cons, Option.some.injEq] at he0
          have hmem : ddEntry e e ∈ drawdowns (e :: t) := by
            rw [drawdowns, cummax, List.zipWith_cons_cons]
            exact List.mem_cons_self _ _
          have hnone2 := hall _ hmem
          rw [ddEntry, if_neg (by rw [he0]; exact hne0)] at hnone2
          exact absurd hnone2 (by simp)
    · intro hnil
      rw [hdd, hnil]
      rfl

/-- Witness for C8 (amended): a one-day run with first equity `1 ≠ 0`, where
the max drawdown is defined and the series is nonempty, satisfying the
restored biconditional. -/
theorem claim_C8_witness :
    (((backtest_rank_ls predsW mktW (1 / 10) (1 / 10) 1).daily.map
      (fun r => r.equity)).head? = some 1) ∧
    ((1 : ℚ) ≠ 0) ∧
    (((backtest_rank_ls predsW mktW (1 / 10) (1 / 10) 1).metrics.maxDrawdown = none) ↔
      (backtest_rank_ls predsW mktW (1 / 10) (1 / 10) 1).daily = []) :=
  ⟨by decide, by decide,
    (claim_C8_amended predsW mktW (1 / 10) (1 / 10) 1).2.2.2.2.2 1 (by decide) (by decide)⟩

theorem minQ_mem : ∀ (l : List ℚ) (m : ℚ), minQ l = some m → m ∈ l
  | [], m, h => by simp [minQ] at h
  | x :: t, m, h => by
    rcases ht : minQ t with _ | y
    · rw [minQ, ht] at h
      simp only [Option.some.injEq] at h
      rw [← h]
      exact List.mem_cons_self _ _
    · rw [minQ, ht] at h
      simp only [Option.some.injEq] at h
      rcases min_choice x y with hc | hc
      · rw [← h, hc]
        exact List.mem_cons_self _ _
      · rw [← h, hc]
        exact List.mem_cons_of_mem _ (minQ_mem t y ht)

theorem minQ_le : ∀ (l : List ℚ) (m : ℚ), minQ l = some m → ∀ x ∈ l, m ≤ x
  | [], m, h => by simp [minQ] at h
  | x :: t, m, h => by
    intro z hz
    rcases ht : minQ t with _ | y
    · rw [minQ, ht] at h
      simp only [Option.some.injEq] at h
      have htnil : t = [] := (minQ_eq_none_iff t).mp ht
      subst htnil
      rcases List.mem_cons.mp hz with rfl | hz
      · exact le_of_eq h.symm
      · simp at hz
    · rw [minQ, ht] at h
      simp only [Option.some.injEq] at h
      rcases List.mem_cons.mp hz with rfl | hz
      · rw [← h]
        exact min_le_left _ _
      · rw [← h]
        exact le_trans (min_le_right _ _) (minQ_le t y ht z hz)

theorem minQ_all_zero : ∀ l : List ℚ, l ≠ [] → (∀ x ∈ l, x = 0) → minQ l = some 0
  | [], h, _ => absurd rfl h
  | a :: t, _, hall => by
    have ha : a = 0 := hall a (List.mem_cons_self _ _)
    rcases ht : minQ t with _ | y
    · rw [minQ, ht]
      simp [ha]
    · have htne : t ≠ [] := by
        intro hc
        rw [hc] at ht
        simp [minQ] at ht
      have hmt : minQ t = some 0 :=
        minQ_all_zero t htne (fun z hz => hall z (List.mem_cons_of_mem _ hz))
      rw [minQ, hmt]
      rw [hmt] at ht
      simp only [Option.some.injEq] at ht
      simp [ha, ← ht]

theorem dd_aux_nonpos : ∀ (l : List ℚ) (acc : ℚ), 0 < acc →
    ∀ d ∈ List.zipWith (fun e m => e / m - 1) l (cummaxAux acc l), d ≤ 0
  | [], _, _, d, hd => by simp at hd
  | x :: t, acc, hacc, d, hd => by
    rw [cummaxAux_cons] at hd
    rw [List.zipWith_cons_cons] at hd
    have hmax : 0 < max acc x := lt_of_lt_of_le hacc (le_max_left _ _)
    rcases List.mem_cons.mp hd with rfl | hd
    · have hx : x ≤ max acc x := le_max_right _ _
      have := (div_le_one hmax).mpr hx
      linarith
    · exact dd_aux_nonpos t (max acc x) hmax d hd

theorem dd_aux_zero_iff : ∀ (l : List ℚ) (acc : ℚ), 0 < acc →
    ((∀ d ∈ List.zipWith (fun e m => e / m - 1) l (cummaxAux acc l), d = 0) ↔
      List.Chain' (· ≤ ·) (acc :: l))
  | [], acc, _ => by simp
  | x :: t, acc, hacc => by
    rw [cummaxAux_cons, List.zipWith_cons_cons]
    have hmax : 0 < max acc x := lt_of_lt_of_le hacc (le_max_left _ _)
    constructor
    · intro hall
      have hhead : x / max acc x - 1 = 0 := hall _ (List.mem_cons_self _ _)
      have h1 : x / max acc x = 1 := by linarith
      have h2 : x = max acc x := (div_eq_one_iff_eq (ne_of_gt hmax)).mp h1
      have hle : acc ≤ x := by
        have h3 := le_max_left acc x
        rw [← h2] at h3
        exact h3
      have hmx : max acc x = x := max_eq_right hle
      rw [List.chain'_cons]
      refine ⟨hle, ?_⟩
      have htail := (dd_aux_zero_iff t (max acc x) hmax).mp
        (fun d hd => hall d (List.mem_cons_of_mem _ hd))
      rw [hmx] at htail
      exact htail
    · intro hch
      rw [List.chain'_cons] at hch
      obtain ⟨hle, hch2⟩ := hch
      have hmx : max acc x = x := max_eq_right hle
      have hxpos : 0 < x := lt_of_lt_of_le hacc hle
      intro d hd
      rcases List.mem_cons.mp hd with rfl | hd
      · rw [hmx, div_self (ne_of_gt hxpos)]
        ring
      · refine (dd_aux_zero_iff t (max acc x) hmax).mpr ?_ d hd
        rw [hmx]
        exact hch2

/-- **C7 (counterexample).**  The claim's "max drawdown is `0` iff equity is
non-decreasing" fails when equity goes negative: with `fee_bps = 15000`
(a 150% fee, accepted unvalidated), the first trading day books
`pnl = -3`, equity becomes `-2` and then falls further to `-3.6`, yet
`equity / cummax - 1 = [0, 0.8]` and the reported max drawdown is `0`
although the equity series is strictly decreasing. -/
theorem claim_C7_counterexample :
    (backtest_rank_ls preds40 mkt60 (1 / 10) (1 / 10) 15000).metrics.maxDrawdown =
      some 0 ∧
    ((backtest_rank_ls preds40 mkt60 (1 / 10) (1 / 10) 15000).daily.map
      (fun r => r.equity)) = [-2, -18 / 5] ∧
    ¬ List.Chain' (· ≤ ·) [(-2 : ℚ), -18 / 5] := by
  refine ⟨by decide, by decide, ?_⟩
  intro hc
  rw [List.chain'_cons] at hc
  have h1 := hc.1
  norm_num at h1

theorem dd_pos_filterMap : ∀ (l : List ℚ) (acc : ℚ), 0 < acc →
    (List.zipWith ddEntry l (cummaxAux acc l)).filterMap id =
      List.zipWith (fun e m => e / m - 1) l (cummaxAux acc l)
  | [], _, _ => rfl
  | x :: t, acc, hacc => by
    rw [cummaxAux_cons, List.zipWith_cons_cons, List.zipWith_cons_cons]
    have hmax : 0 < max acc x := lt_of_lt_of_le hacc (le_max_left _ _)
    rw [ddEntry, if_neg (ne_of_gt hmax)]
    simp only [List.filterMap_cons, id]
    rw [dd_pos_filterMap t (max acc x) hmax]

theorem mkDaily_zero_equity : ∀ (l : List (Nat × ℚ)), ∀ r ∈ mkDaily 0 l, r.equity = 0
  | [], r, hr => by simp [mkDaily_nil] at hr
  | (t, p) :: rest, r, hr => by
    rw [mkDaily_cons] at hr
    rcases List.mem_cons.mp hr with rfl | hr
    · simp
    · have h0 : (0 : ℚ) * (1 + p) = 0 := by ring
      rw [h0] at hr
      exact mkDaily_zero_equity rest r hr

/-- If the head equity of a compounded table is `0`, every equity is `0`:
zeros propagate through the cumulative product. -/
theorem mkDaily_headEquity_zero (acc : ℚ) (L : List (Nat × ℚ)) (r0 : DailyRow)
    (h0 : (mkDaily acc L).head? = some r0) (hz : r0.equity = 0) :
    ∀ r ∈ mkDaily acc L, r.equity = 0 := by
  rcases L with _ | ⟨⟨t, p⟩, rest⟩
  · rw [mkDaily_nil] at h0
    simp at h0
  · rw [mkDaily_cons] at h0 ⊢
    simp only [List.head?_cons, Option.some.injEq] at h0
    have heq : acc * (1 + p) = 0 := by
      rw [← h0] at hz
      exact hz
    intro r hr
    rcases List.mem_cons.mp hr with rfl | hr
    · exact heq
    · rw [heq] at hr
      exact mkDaily_zero_equity rest r hr

/-- Over an all-zero equity list the running maximum stays `0`, so every
drawdown entry is the NaN sentinel. -/
theorem dd_all_zero_none : ∀ (l : List ℚ), (∀ x ∈ l, x = 0) →
    ∀ d ∈ List.zipWith ddEntry l (cummaxAux 0 l), d = none
  | [], _, d, hd => by simp at hd
  | x :: t, hall, d, hd => by
    have hx : x = 0 := hall x (List.mem_cons_self _ _)
    rw [cummaxAux_cons, List.zipWith_cons_cons] at hd
    have hmx : max 0 x = 0 := by
      rw [hx]
      simp
    rcases List.mem_cons.mp hd with rfl | hd
    · rw [ddEntry, if_pos hmx]
    · rw [hmx] at hd
      exact dd_all_zero_none t (fun z hz => hall z (List.mem_cons_of_mem _ hz)) d hd

/-- **C7 (amended).**  Whenever the reported max drawdown is a number (on a
nonempty series whose drawdown entries are not all NaN), it is the minimum
over dates of the defined `equity / running-max-equity - 1` entries (NaN
entries are skipped by `dd.min()`) and is always `≤ 0`; and *provided the
first equity value is positive* (as when no single-period pnl is `≤ -1`), it
equals `0` iff the equity series is non-decreasing throughout.  The
positivity proviso is forced by the counterexample above. -/
theorem claim_C7_amended (preds : List PredRow) (market : List MktRow)
    (lq sq feeBps : ℚ) (m : ℚ)
    (hm : (backtest_rank_ls preds market lq sq feeBps).metrics.maxDrawdown = some m) :
    (m ∈ (drawdowns ((backtest_rank_ls preds market lq sq feeBps).daily.map
        (fun r => r.equity))).filterMap id ∧
      ∀ x ∈ (drawdowns ((backtest_rank_ls preds market lq sq feeBps).daily.map
        (fun r => r.equity))).filterMap id, m ≤ x) ∧
    m ≤ 0 ∧
    (∀ e0 ∈ ((backtest_rank_ls preds market lq sq feeBps).daily.map
        (fun r => r.equity)).head?, 0 < e0 →
      (m = 0 ↔ List.Chain' (· ≤ ·)
        ((backtest_rank_ls preds market lq sq feeBps).daily.map (fun r => r.equity)))) := by
  have hm1 : maxDrawdownOf ((backtest_rank_ls preds market lq sq feeBps).daily.map
      (fun r => r.equity)) = some m := hm
  have hne : ((backtest_rank_ls preds market lq sq feeBps).daily.map
      (fun r => r.equity)).isEmpty = false := by
    by_contra hc
    rw [Bool.not_eq_false] at hc
    rw [maxDrawdownOf, if_pos hc] at hm1
    exact absurd hm1 (by simp)
  have hm2 : minQ ((drawdowns ((backtest_rank_ls preds market lq sq feeBps).daily.map
      (fun r => r.equity))).filterMap id) = some m := by
    rw [maxDrawdownOf, if_neg (by simp [hne])] at hm1
    exact hm1
  refine ⟨⟨minQ_mem _ m hm2, minQ_le _ m hm2⟩, ?_, ?_⟩
  · rcases hE : (backtest_rank_ls preds market lq sq feeBps).daily.map (fun r => r.equity)
      with _ | ⟨e, t⟩
    · rw [hE] at hne
      simp at hne
    · by_cases he : e = 0
      · exfalso
        have hd0 : ((backtest_rank_ls preds market lq sq feeBps).daily.map
            (fun r => r.equity)).head? = some e := by
          rw [hE]
          rfl
        rw [List.head?_map] at hd0
        rcases hh : (backtest_rank_ls preds market lq sq feeBps).daily.head? with _ | r0
        · rw [hh] at hd0
          exact absurd hd0 (by simp)
        · rw [hh] at hd0
          have hd1 : r0.equity = e := by
            simpa using hd0
          have hz0 : r0.equity = 0 := by
            rw [hd1, he]
          have hallz : ∀ r ∈ (backtest_rank_ls preds market lq sq feeBps).daily,
              r.equity = 0 :=
            mkDaily_headEquity_zero 1 _ r0 hh hz0
          have halleq : ∀ x ∈ (backtest_rank_ls preds market lq sq feeBps).daily.map
              (fun r => r.equity), x = 0 := by
            intro x hx
            rcases List.mem_map.mp hx with ⟨r, hr, rfl⟩
            exact hallz r hr
          have hallnone : ∀ d ∈ drawdowns ((backtest_rank_ls preds market lq sq feeBps).daily.map
              (fun r => r.equity)), d = none := by
            rw [hE]
            rw [hE] at halleq
            intro d hd
            rw [drawdowns, cummax, List.zipWith_cons_cons] at hd
            rcases List.mem_cons.mp hd with rfl | hd
            · rw [ddEntry, if_pos he]
            · rw [he] at hd
              exact dd_all_zero_none t
                (fun z hz => halleq z (List.mem_cons_of_mem _ hz)) d hd
          have hnil : (drawdowns ((backtest_rank_ls preds market lq sq feeBps).daily.map
              (fun r => r.equity))).filterMap id = [] :=
            (filterMap_id_eq_nil_iff _).mpr hallnone
          rw [hnil] at hm2
          exact absurd hm2 (by simp [minQ])
      · have h0mem : (0 : ℚ) ∈ (drawdowns ((backtest_rank_ls preds market lq sq feeBps).daily.map
            (fun r => r.equity))).filterMap id := by
          rw [hE, drawdowns, cummax, List.zipWith_cons_cons, ddEntry, if_neg he]
          rw [div_self he]
          simp only [List.filterMap_cons, id]
          have h01 : (1 : ℚ) - 1 = 0 := by ring
          rw [h01]
          exact List.mem_cons_self _ _
        exact minQ_le _ m hm2 0 h0mem
  · intro e0 he0 hpos
    rcases hE : (backtest_rank_ls preds market lq sq feeBps).daily.map (fun r => r.equity)
      with _ | ⟨e, t⟩
    · rw [hE] at he0
      simp at he0
    · rw [hE] at he0 hm2 ⊢
      simp only [List.head?_cons, Option.mem_def, Option.some.injEq] at he0
      have hpos2 : 0 < e := by
        rw [he0]
        exact hpos
      have hne2 : e ≠ 0 := ne_of_gt hpos2
      have hflt : (drawdowns (e :: t)).filterMap id =
          (e / e - 1) :: List.zipWith (fun x m => x / m - 1) t (cummaxAux e t) := by
        rw [drawdowns, cummax, List.zipWith_cons_cons, ddEntry, if_neg hne2]
        simp only [List.filterMap_cons, id]
        rw [dd_pos_filterMap t e hpos2]
      rw [hflt, div_self hne2] at hm2
      have h01 : (1 : ℚ) - 1 = 0 := by ring
      rw [h01] at hm2
      constructor
      · intro hm0
        subst hm0
        have hall : ∀ d ∈ (0 : ℚ) :: List.zipWith (fun x m => x / m - 1) t
            (cummaxAux e t), d = 0 := by
          intro d hd
          have hge := minQ_le _ 0 hm2 d hd
          have hle : d ≤ 0 := by
            rcases List.mem_cons.mp hd with rfl | hd2
            · exact le_refl 0
            · exact dd_aux_nonpos t e hpos2 d hd2
          linarith
        refine (dd_aux_zero_iff t e hpos2).mp ?_
        intro d hd
        exact hall d (List.mem_cons_of_mem _ hd)
      · intro hch
        have hall : ∀ d ∈ (0 : ℚ) :: List.zipWith (fun x m => x / m - 1) t
            (cummaxAux e t), d = 0 := by
          intro d hd
          rcases List.mem_cons.mp hd with rfl | hd2
          · rfl
          · exact (dd_aux_zero_iff t e hpos2).mpr hch d hd2
        have hz := minQ_all_zero _ (by simp) hall
        rw [hz] at hm2
        simpa using hm2.symm

/-- Witness for C7 (amended): on a one-day run the max drawdown is `0`, it is
the minimum of the (defined) drawdown entries, and the trivially
non-decreasing positive equity series satisfies the iff. -/
theorem claim_C7_witness :
    ((backtest_rank_ls predsW mktW (1 / 10) (1 / 10) 1).metrics.maxDrawdown =
      some 0) ∧
    (((0 : ℚ) ∈ (drawdowns ((backtest_rank_ls predsW mktW (1 / 10) (1 / 10) 1).daily.map
        (fun r => r.equity))).filterMap id ∧
      ∀ x ∈ (drawdowns ((backtest_rank_ls predsW mktW (1 / 10) (1 / 10) 1).daily.map
        (fun r => r.equity))).filterMap id, (0 : ℚ) ≤ x) ∧
    (0 : ℚ) ≤ 0 ∧
    (∀ e0 ∈ ((backtest_rank_ls predsW mktW (1 / 10) (1 / 10) 1).daily.map
        (fun r => r.equity)).head?, 0 < e0 →
      ((0 : ℚ) = 0 ↔ List.Chain' (· ≤ ·)
        ((backtest_rank_ls predsW mktW (1 / 10) (1 / 10) 1).daily.map
          (fun r => r.equity))))) :=
  ⟨by decide, claim_C7_amended predsW mktW (1 / 10) (1 / 10) 1 0 (by decide)⟩

/-- **C6 (counterexample).**  The engine has a single hard-wired policy: its
parameters are `long_q`, `short_q`, `fee_bps` only, with no policy selector.
On a 20-symbol day it assigns the weight `1/2 ∉ {-1, 0, +1}` (so no
`weight = sign(score)` mode is in effect), and the daily portfolio pnl equals
the *sum* `-1/5000` of the per-symbol pnls, not their arithmetic mean
`-1/100000`. -/
theorem claim_C6_counterexample :
    ((backtest_rank_ls preds20 mkt20 (1 / 10) (1 / 10) 1).daily.map
      (fun r => r.pnl)) = [-1 / 5000] ∧
    ((pnlRows (1 / 10) (1 / 10) 1 (dfJoined preds20 mkt20)).map
      (fun r => r.pnlSym)).sum = -1 / 5000 ∧
    meanQ ((pnlRows (1 / 10) (1 / 10) 1 (dfJoined preds20 mkt20)).map
      (fun r => r.pnlSym)) = -1 / 100000 ∧
    ((-1 : ℚ) / 5000) ≠ -1 / 100000 ∧
    ((1 : ℚ) / 2) ∈ (withPos (1 / 10) (1 / 10) (dfJoined preds20 mkt20)).map Prod.snd ∧
    ¬ ((1 : ℚ) / 2 = -1 ∨ (1 : ℚ) / 2 = 0 ∨ (1 : ℚ) / 2 = 1) := by
  refine ⟨by decide, by decide, by decide, by norm_num, by decide, by norm_num⟩

/-- **C6 (amended).**  The engine exposes a single (quantile) policy; daily
aggregation is always the *sum*: each output row's pnl is the sum of the
per-symbol `pnl_sym` over the joined rows of that date. -/
theorem claim_C6_amended (preds : List PredRow) (market : List MktRow)
    (lq sq feeBps : ℚ) :
    ∀ d ∈ (backtest_rank_ls preds market lq sq feeBps).daily,
      d.pnl = (((pnlRows lq sq feeBps (dfJoined preds market)).filter
        (fun r => decide (r.ts = d.ts))).map (fun r => r.pnlSym)).sum := by
  intro d hd
  have hd2 : d ∈ mkDaily 1 (dailyPnls (pnlRows lq sq feeBps (dfJoined preds market))) := hd
  rcases mkDaily_mem _ 1 d hd2 with ⟨q, hq, hts, hpnl⟩
  rw [dailyPnls] at hq
  rcases List.mem_map.mp hq with ⟨t, _, rfl⟩
  rw [hpnl, hts]

/-- Witness for C6 (amended): on the one-symbol run, the single daily row's
pnl equals the sum of that date's per-symbol pnls. -/
theorem claim_C6_witness :
    ((⟨2, 0, 1⟩ : DailyRow) ∈ (backtest_rank_ls predsW mktW (1 / 10) (1 / 10) 1).daily) ∧
    (⟨2, 0, 1⟩ : DailyRow).pnl =
      (((pnlRows (1 / 10) (1 / 10) 1 (dfJoined predsW mktW)).filter
        (fun r => decide (r.ts = (⟨2, 0, 1⟩ : DailyRow).ts))).map
          (fun r => r.pnlSym)).sum :=
  ⟨by decide, claim_C6_amended predsW mktW (1 / 10) (1 / 10) 1 ⟨2, 0, 1⟩ (by decide)⟩

/-- **C9.**  The engine never mutates its two argument tables: replayed on an
explicit heap with the arguments passed by reference, every in-place write
targets an object allocated inside the call, so after the call both argument
references still hold exactly the objects they held before — same rows, same
columns, same order. -/
theorem claim_C9 (h : Heap) (pRef mRef : Nat) (lq sq feeBps : ℚ)
    (hp : pRef < h.length) (hm : mRef < h.length) :
    ((enginePyHeap h pRef mRef lq sq feeBps).1)[pRef]? = h[pRef]? ∧
    ((enginePyHeap h pRef mRef lq sq feeBps).1)[mRef]? = h[mRef]? := by
  have key : ∀ i : Nat, i < h.length →
      ((enginePyHeap h pRef mRef lq sq feeBps).1)[i]? = h[i]? := by
    intro i hi
    simp only [enginePyHeap, halloc, hwrite]
    rw [List.getElem?_append_left (by
        simp only [List.length_set, List.length_append, List.length_cons,
          List.length_nil]
        omega),
      List.getElem?_set_ne (by
        simp only [List.length_set, List.length_append, List.length_cons,
          List.length_nil]
        omega),
      List.getElem?_set_ne (by
        simp only [List.length_set, List.length_append, List.length_cons,
          List.length_nil]
        omega),
      List.getElem?_append_left (by
        simp only [List.length_set, List.length_append, List.length_cons,
          List.length_nil]
        omega),
      List.getElem?_set_ne (by
        simp only [List.length_append, List.length_cons, List.length_nil]
        omega),
      List.getElem?_append_left (by
        simp only [List.length_append, List.length_cons, List.length_nil]
        omega),
      List.getElem?_append_left hi]
  exact ⟨key pRef hp, key mRef hm⟩

/-- Witness for C9: a two-object heap holding an empty predictions table at
reference `0` and an empty market table at reference `1` is unchanged at both
references by running the engine. -/
theorem claim_C9_witness :
    ((0 : Nat) < ([Obj.pT [], Obj.mT []] : Heap).length) ∧
    ((1 : Nat) < ([Obj.pT [], Obj.mT []] : Heap).length) ∧
    ((enginePyHeap [Obj.pT [], Obj.mT []] 0 1 (1 / 10) (1 / 10) 1).1)[(0 : Nat)]? =
      ([Obj.pT [], Obj.mT []] : Heap)[(0 : Nat)]? ∧
    ((enginePyHeap [Obj.pT [], Obj.mT []] 0 1 (1 / 10) (1 / 10) 1).1)[(1 : Nat)]? =
      ([Obj.pT [], Obj.mT []] : Heap)[(1 : Nat)]? :=
  ⟨by decide, by decide,
    (claim_C9 [Obj.pT [], Obj.mT []] 0 1 (1 / 10) (1 / 10) 1 (by decide) (by decide)).1,
    (claim_C9 [Obj.pT [], Obj.mT []] 0 1 (1 / 10) (1 / 10) 1 (by decide) (by decide)).2⟩

end Finml

